import Mathlib

/-!
# Verification of `near-image-deduplication`

Shallow embedding of the repository's core (`src/hashes.py`, `src/deduplication.py`)
and proofs of the specification claims.

Conventions of the embedding:

* A fingerprint (`hash` of a `HashedImage`) is a `List ℕ` of bits in input order.
* The images of one `deduplicate(imgs)` call are represented by their indices
  `0, 1, ..., n-1` in input order; `hashes : List (List ℕ)` holds the fingerprint
  `hash_func(imgs[i])` of image `i` (the hash function is applied once per image,
  before any comparison, exactly as in the source).  Python object identity of the
  per-call `HashedImage` records (`img is potential_duplicate`) is index equality.
* The mutable per-call state is passed explicitly:
  - `table : String → List ℕ` models the Python dict `hash_table` (bucket of image
    indices per key string, `dict.get(key, [])` reading `[]` for absent keys);
  - `dup : ℕ → List ℕ` models the `duplicates` list of each `HashedImage`
    (children of image `p`, in append order);
  - `m : ℕ → Bool` models the numpy `matched` boolean array of the brute-force
    clusterer (all images have index `< n`, so a total function is faithful).
* Fallible operations return `Option`: `none` models an uncaught Python exception
  aborting the whole `deduplicate` call (scipy's `ValueError` on fingerprints of
  unequal length, numpy's `IndexError` on a band position outside the fingerprint).
* Machine floats: the only float computation is
  `hamming(a, b) * mult < 10` with `hamming(a, b) = count / len` where
  `count ≤ len` and `len, mult, count` are small integers; the comparison agrees
  with the exact rational comparison `count * mult < 10 * len` (the exact value is
  a rational with denominator `len`, so it is never within float rounding error of
  the decision boundary unless it equals it exactly), and `nan < 10` (the `len = 0`
  case, where numpy's mean of an empty array is `nan`) is `False`, which the strict
  inequality `0 * mult < 10 * 0` also yields.  So the embedding uses the exact
  integer comparison.
-/

/-- Number of positions at which two equal-length bit lists differ; this is the
numerator of scipy's `hamming(a, b) = np.average(a != b)` (count of differing
positions over the common length). -/
def hammingCount (a b : List ℕ) : ℕ :=
  (List.zipWith (fun x y => if x = y then 0 else 1) a b).sum

/-- Models `hamming(a, b) * mult < 10` as used by both clusterers
(`deduplication.py` lines 84 and 137).  scipy's `hamming` raises `ValueError`
when the two arrays have different lengths (`none` here, aborting the call);
otherwise the float comparison `count/len * mult < 10` is the exact comparison
`count * mult < 10 * len` (see the module comment; at `len = 0` both are
`False`). -/
def cmpLT10 (a b : List ℕ) (mult : ℕ) : Option Bool :=
  if a.length = b.length then some (decide (hammingCount a b * mult < 10 * a.length))
  else none

/-- The distance value the LSH clusterer compares against the threshold:
`hamming(hashed_img.hash, potential_duplicate.hash) * self._d`
(`deduplication.py` line 84), as an exact rational (defined for equal nonzero
lengths, the case in which scipy returns a number rather than raising/`nan`). -/
def lshDistanceVal (a : List ℕ) (b : List ℕ) (d : ℕ) : ℚ :=
  (hammingCount a b : ℚ) / (a.length : ℚ) * (d : ℚ)

/-- The distance value the brute-force clusterer compares against the threshold:
`hamming(img.hash, hashed_images[i].hash) * 64` (`deduplication.py` line 137);
note the hard-coded `64`, independent of the actual fingerprint length. -/
def bfDistanceVal (a : List ℕ) (b : List ℕ) : ℚ :=
  (hammingCount a b : ℚ) / (a.length : ℚ) * 64

/-- Core of `dhash` (`hashes.py`): the external `cv2.cvtColor`/`cv2.resize`
calls are abstracted by `resized`, the grayscale image resized to
`hash_size` rows by `hash_size + 1` columns (`cv2.resize(gray, (s + 1, s))`
takes `(width, height)`); `resized i j` is the sample at row `i`, column `j`.
Source: `diff = resized[:, 1:] > resized[:, :-1]` followed by
`np.array([1 if i else 0 for i in diff.flatten()])` (row-major flatten). -/
def dhash (s : ℕ) (resized : ℕ → ℕ → ℕ) : List ℕ :=
  ((List.range s).map (fun i =>
    (List.range s).map (fun j => if resized i j < resized i (j + 1) then 1 else 0))).flatten

/-- Models `np.random.choice(list(range(d)), k)` (`deduplication.py` line 57):
`k` independent draws *with replacement*, each uniform over `[0, d)`.  The
random source is an arbitrary draw stream; draw `t` yields `stream t % d`, so
the possible outcomes are exactly all `k`-tuples over `[0, d)`. -/
def npChoice (d k : ℕ) (stream : ℕ → ℕ) : List ℕ :=
  (List.range k).map (fun t => stream t % d)

/-- Models `self._projections = np.array([np.random.choice(list(range(d)), k)
for _ in range(l)])`: `l` bands, each `k` draws from the stream. -/
def lshProjections (d k l : ℕ) (stream : ℕ → ℕ) : List (List ℕ) :=
  (List.range l).map (fun b => npChoice d k (fun t => stream (b * k + t)))

/-- Band key of an image: `g_x = "".flatten(hashed_img.hash[g].astype("str"))`
(`deduplication.py` line 74).  Numpy fancy indexing raises `IndexError`
(`none`) if any position is out of bounds of the fingerprint. -/
def bandKey (h g : List ℕ) : Option String :=
  if g.all (fun p => p < h.length) then
    some (String.join (g.map (fun p => toString (h.getD p 0))))
  else none

/-- The candidate scan of one bucket (`for potential_duplicate in l:` loop,
`deduplication.py` lines 77-88) for the incoming image `i` with fingerprint
`h`: breaks as soon as `unique` is false, skips the image itself
(`hashed_img is potential_duplicate`), otherwise checks
`hamming(...) * self._d < 10`; on a match appends `i` to the candidate's
`duplicates` and clears `unique`.  Returns the updated `duplicates` state and
`unique` flag, or `none` if a comparison raised. -/
def scanBucket (hashes : List (List ℕ)) (d i : ℕ) (h : List ℕ) :
    List ℕ → (ℕ → List ℕ) → Bool → Option ((ℕ → List ℕ) × Bool)
  | [], dup, unique => some (dup, unique)
  | c :: cs, dup, unique =>
    if unique = false then some (dup, unique)
    else if c = i then scanBucket hashes d i h cs dup unique
    else
      match cmpLT10 h (hashes.getD c []) d with
      | none => none
      | some true =>
          scanBucket hashes d i h cs (fun x => if x = c then dup c ++ [i] else dup x) false
      | some false => scanBucket hashes d i h cs dup unique

/-- One band of the LSH inner loop (`for g in self._projections:`, lines
73-91): form the band key, look the bucket up in the *single shared*
`hash_table`, scan it, then append the incoming image to the bucket
(`l.append(hashed_img); hash_table[g_x] = l`). -/
def lshBand (hashes : List (List ℕ)) (d i : ℕ) (h : List ℕ)
    (st : (String → List ℕ) × (ℕ → List ℕ) × Bool) (g : List ℕ) :
    Option ((String → List ℕ) × (ℕ → List ℕ) × Bool) :=
  match bandKey h g with
  | none => none
  | some key =>
    let bucket := st.1 key
    match scanBucket hashes d i h bucket st.2.1 st.2.2 with
    | none => none
    | some (dup, unique) =>
        some (fun s => if s = key then bucket ++ [i] else st.1 s, dup, unique)

/-- Processing of one incoming image by `LSHDeduplicator.deduplicate` (lines
70-94): fold the band loop starting from `unique = True`; afterwards append
the image to `result` iff it stayed unique. -/
def lshImage (hashes : List (List ℕ)) (proj : List (List ℕ)) (d : ℕ)
    (st : (String → List ℕ) × (ℕ → List ℕ) × List ℕ) (i : ℕ) :
    Option ((String → List ℕ) × (ℕ → List ℕ) × List ℕ) :=
  match proj.foldlM (lshBand hashes d i (hashes.getD i [])) (st.1, st.2.1, true) with
  | none => none
  | some (table, dup, unique) =>
      some (table, dup, if unique then st.2.2 ++ [i] else st.2.2)

/-- The main loop of `LSHDeduplicator.deduplicate` before flattening: fold over
the images in input order, starting from an empty `hash_table`, empty
`duplicates` lists, and an empty `result`.  Returns the final table, the
`duplicates` forest and the root list. -/
def lshRun (proj : List (List ℕ)) (d : ℕ) (hashes : List (List ℕ)) :
    Option ((String → List ℕ) × (ℕ → List ℕ) × List ℕ) :=
  (List.range hashes.length).foldlM (lshImage hashes proj d)
    (fun _ => [], fun _ => [], [])

/-- `Deduplicator._flatten` (`deduplication.py` lines 27-32): the image itself
followed by the recursive flattening of each of its `duplicates`, in order.
The Python recursion is bounded by the forest depth; `fuel` makes the
recursion structural, and every run passes `fuel = n`, which the forest
invariants prove sufficient (a duplicate chain never exceeds `n` images). -/
def flattenF (dup : ℕ → List ℕ) : ℕ → ℕ → List ℕ
  | 0, i => [i]
  | fuel + 1, i => i :: ((dup i).map (flattenF dup fuel)).flatten

/-- `LSHDeduplicator.deduplicate` (lines 59-97), for a deduplicator
constructed with bands `proj` and dimensionality `d`, applied to images whose
fingerprints are `hashes` (in input order): the per-image loop followed by
`result = [self._flatten(img) for img in result]`.  Groups are lists of image
indices. -/
def lshDeduplicate (proj : List (List ℕ)) (d : ℕ) (hashes : List (List ℕ)) :
    Option (List (List ℕ)) :=
  match lshRun proj d hashes with
  | none => none
  | some (_, dup, roots) => some (roots.map (flattenF dup hashes.length))

/-- Modelled from the spec (§4.4 "maintain `l` independent hash tables, each
keyed by the string/key formed from concatenating the bits at a band's `k`
positions"): the per-band variant of `lshBand`, with one table per band index
(the source instead keeps a single `hash_table` dict shared by all bands).
Missing from the source; used only to state claim C4 as written. -/
def lshBandIndep (hashes : List (List ℕ)) (d i : ℕ) (h : List ℕ)
    (st : (ℕ → String → List ℕ) × (ℕ → List ℕ) × Bool) (bg : ℕ × List ℕ) :
    Option ((ℕ → String → List ℕ) × (ℕ → List ℕ) × Bool) :=
  match bandKey h bg.2 with
  | none => none
  | some key =>
    let bucket := st.1 bg.1 key
    match scanBucket hashes d i h bucket st.2.1 st.2.2 with
    | none => none
    | some (dup, unique) =>
        some (fun b s => if b = bg.1 ∧ s = key then bucket ++ [i] else st.1 b s,
          dup, unique)

/-- Modelled from the spec: per-image step of the independent-tables variant. -/
def lshImageIndep (hashes : List (List ℕ)) (proj : List (List ℕ)) (d : ℕ)
    (st : (ℕ → String → List ℕ) × (ℕ → List ℕ) × List ℕ) (i : ℕ) :
    Option ((ℕ → String → List ℕ) × (ℕ → List ℕ) × List ℕ) :=
  match proj.enum.foldlM (lshBandIndep hashes d i (hashes.getD i []))
      (st.1, st.2.1, true) with
  | none => none
  | some (table, dup, unique) =>
      some (table, dup, if unique then st.2.2 ++ [i] else st.2.2)

/-- Modelled from the spec: `deduplicate` of the independent-tables variant of
the approximate clusterer, identical to `lshDeduplicate` except that each band
looks up and inserts into its own hash table. -/
def lshDeduplicateIndep (proj : List (List ℕ)) (d : ℕ) (hashes : List (List ℕ)) :
    Option (List (List ℕ)) :=
  match (List.range hashes.length).foldlM (lshImageIndep hashes proj d)
      (fun _ _ => [], fun _ => [], []) with
  | none => none
  | some (_, dup, roots) => some (roots.map (flattenF dup hashes.length))

/-- Number of entries of the numpy `matched` array that are still `False`
(`matched` has one entry per image, index `< n`). -/
def unmatchedCount (n : ℕ) (m : ℕ → Bool) : ℕ :=
  (List.range n).countP (fun j => !(m j))

/-- The inner `for i in range(len(hashed_images)):` scan of
`BruteForceDeduplicator.deduplicate` (lines 133-142) for the dequeued image
`p` with fingerprint `hp`: skip the image itself and already-matched images;
otherwise check `hamming(...) * 64 < 10`; on a match append to `p`'s
`duplicates`, mark matched and record the index for the queue (`adds`). -/
def bfScan (hashes : List (List ℕ)) (p : ℕ) (hp : List ℕ) :
    List ℕ → (ℕ → Bool) → (ℕ → List ℕ) → List ℕ →
    Option ((ℕ → Bool) × (ℕ → List ℕ) × List ℕ)
  | [], m, dup, adds => some (m, dup, adds)
  | i :: is, m, dup, adds =>
    if p = i ∨ m i then bfScan hashes p hp is m dup adds
    else
      match cmpLT10 hp (hashes.getD i []) 64 with
      | none => none
      | some true =>
          bfScan hashes p hp is (fun x => if x = i then true else m x)
            (fun x => if x = p then dup p ++ [i] else dup x) (adds ++ [i])
      | some false => bfScan hashes p hp is m dup adds

/-- Helper for the termination of the breadth-first loops: flipping one
in-range unmatched index to matched decreases the unmatched count by one. -/
theorem countP_flip (m : ℕ → Bool) (i : ℕ) :
    ∀ l : List ℕ, l.Nodup → i ∈ l → m i = false →
      l.countP (fun j => !(if j = i then true else m j)) + 1 =
        l.countP (fun j => !(m j)) := by
  intro l
  induction l with
  | nil => intro _ hi; cases hi
  | cons a l ih =>
    intro hnd hi hm
    by_cases hai : a = i
    · subst hai
      have ha : a ∉ l := (List.nodup_cons.1 hnd).1
      have h1 : l.countP (fun j => !(if j = a then true else m j)) =
          l.countP (fun j => !(m j)) := by
        apply List.countP_congr
        intro j hj
        have hja : j ≠ a := fun h => ha (h ▸ hj)
        simp [hja]
      rw [List.countP_cons, List.countP_cons, h1]
      simp [hm]
    · have hi' : i ∈ l := by
        rcases List.mem_cons.1 hi with h | h
        · exact absurd h.symm hai
        · exact h
      have h2 := ih (List.nodup_cons.1 hnd).2 hi' hm
      rw [List.countP_cons, List.countP_cons]
      have hia : ¬ (a = i) := hai
      simp only [hia, if_false]
      omega

/-- `bfScan` only marks images: the unmatched count plus the number of queued
additions does not increase (each addition flips one in-range unmatched index). -/
theorem bfScan_measure (hashes : List (List ℕ)) (p : ℕ) (hp : List ℕ) (n : ℕ) :
    ∀ (is : List ℕ) (m : ℕ → Bool) (dup : ℕ → List ℕ) (adds : List ℕ),
      (∀ i ∈ is, i < n) →
      ∀ r, bfScan hashes p hp is m dup adds = some r →
        unmatchedCount n r.1 + r.2.2.length ≤ unmatchedCount n m + adds.length
  | [], m, dup, adds, _, r, hr => by
    simp only [bfScan] at hr
    cases hr
    exact le_refl _
  | i :: is, m, dup, adds, hlt, r, hr => by
    simp only [bfScan] at hr
    by_cases hskip : p = i ∨ m i
    · rw [if_pos hskip] at hr
      exact bfScan_measure hashes p hp n is m dup adds
        (fun j hj => hlt j (List.mem_cons_of_mem _ hj)) r hr
    · rw [if_neg hskip] at hr
      rcases hc : cmpLT10 hp (hashes.getD i []) 64 with _ | b
      · rw [hc] at hr; cases hr
      · rw [hc] at hr
        cases b
        · exact bfScan_measure hashes p hp n is m dup adds
            (fun j hj => hlt j (List.mem_cons_of_mem _ hj)) r hr
        · have h3 := bfScan_measure hashes p hp n is
            (fun x => if x = i then true else m x)
            (fun x => if x = p then dup p ++ [i] else dup x) (adds ++ [i])
            (fun j hj => hlt j (List.mem_cons_of_mem _ hj)) r hr
          have hmi : m i = false := by
            rcases Bool.eq_false_or_eq_true (m i) with h | h
            · exact absurd (Or.inr h) hskip
            · exact h
          have h4 := countP_flip m i (List.range n) (List.nodup_range n)
            (List.mem_range.2 (hlt i (List.mem_cons_self i is))) hmi
          simp only [unmatchedCount] at h3 ⊢
          simp only [List.length_append, List.length_cons, List.length_nil] at h3 ⊢
          omega

/-- The breadth-first queue drain of `BruteForceDeduplicator.deduplicate`
(lines 131-142): `while queue: img = queue.pop(0); ...` — pop the head, scan
all images, enqueue the newly matched. -/
def bfsLoop (hashes : List (List ℕ)) (m : ℕ → Bool) (q : List ℕ)
    (dup : ℕ → List ℕ) : Option ((ℕ → Bool) × (ℕ → List ℕ)) :=
  match q with
  | [] => some (m, dup)
  | p :: qs =>
    match hscan : bfScan hashes p (hashes.getD p []) (List.range hashes.length)
        m dup [] with
    | none => none
    | some (m', dup', adds) => bfsLoop hashes m' (qs ++ adds) dup'
termination_by 2 * unmatchedCount hashes.length m + q.length
decreasing_by
  have h := bfScan_measure hashes p (hashes.getD p []) hashes.length
    (List.range hashes.length) m dup [] (fun i hi => List.mem_range.1 hi)
    (m', dup', adds) hscan
  simp only [List.length_nil, List.length_append, List.length_cons] at h ⊢
  omega

/-- Unfolding equation of `bfsLoop` on the empty queue. -/
theorem bfsLoop_nil (hashes : List (List ℕ)) (m : ℕ → Bool) (dup : ℕ → List ℕ) :
    bfsLoop hashes m [] dup = some (m, dup) := by
  rw [bfsLoop]

/-- Unfolding equation of `bfsLoop` on a nonempty queue. -/
theorem bfsLoop_cons (hashes : List (List ℕ)) (m : ℕ → Bool) (p : ℕ) (qs : List ℕ)
    (dup : ℕ → List ℕ) :
    bfsLoop hashes m (p :: qs) dup =
      match bfScan hashes p (hashes.getD p []) (List.range hashes.length) m dup [] with
      | none => none
      | some (m', dup', adds) => bfsLoop hashes m' (qs ++ adds) dup' := by
  rw [bfsLoop]
  rcases h : bfScan hashes p (hashes.getD p []) (List.range hashes.length) m dup []
    with _ | ⟨m', dup', adds⟩
  · simp [h]
  · simp [h]

/-- `bfsLoop` never unmarks an image: the unmatched count does not increase. -/
theorem bfsLoop_measure (hashes : List (List ℕ)) (m : ℕ → Bool) (q : List ℕ)
    (dup : ℕ → List ℕ) :
    ∀ r, bfsLoop hashes m q dup = some r →
      unmatchedCount hashes.length r.1 ≤ unmatchedCount hashes.length m := by
  induction m, q, dup using bfsLoop.induct hashes with
  | case1 m dup =>
    intro r hr
    rw [bfsLoop_nil] at hr
    cases hr
    exact le_refl _
  | case2 m dup p qs hscan =>
    intro r hr
    rw [bfsLoop_cons, hscan] at hr
    cases hr
  | case3 m dup p qs m' dup' adds hscan ih =>
    intro r hr
    rw [bfsLoop_cons, hscan] at hr
    have h1 := ih r hr
    have h2 := bfScan_measure hashes p (hashes.getD p []) hashes.length
      (List.range hashes.length) m dup [] (fun i hi => List.mem_range.1 hi)
      (m', dup', adds) hscan
    simp only [List.length_nil] at h2
    omega

/-- The outer `while not matched.all():` loop of
`BruteForceDeduplicator.deduplicate` (lines 124-142): while an unmatched image
remains, take the first one (`np.where(matched == False)[0][0]`) as a new
root, append it to `result`, mark it matched, and drain the breadth-first
queue seeded with it. -/
def bfOuter (hashes : List (List ℕ)) (m : ℕ → Bool) (dup : ℕ → List ℕ)
    (roots : List ℕ) : Option ((ℕ → List ℕ) × List ℕ) :=
  match hfind : (List.range hashes.length).find? (fun j => !(m j)) with
  | none => some (dup, roots)
  | some r =>
    match hloop : bfsLoop hashes (fun x => if x = r then true else m x) [r] dup with
    | none => none
    | some (m', dup') => bfOuter hashes m' dup' (roots ++ [r])
termination_by unmatchedCount hashes.length m
decreasing_by
  have hr1 := List.find?_some hfind
  have hr2 : r ∈ List.range hashes.length := List.mem_of_find?_eq_some hfind
  have hmr : m r = false := by
    simpa using hr1
  have h1 := bfsLoop_measure hashes (fun x => if x = r then true else m x) [r] dup
    (m', dup') hloop
  have h2 := countP_flip m r (List.range hashes.length)
    (List.nodup_range hashes.length) hr2 hmr
  simp only [unmatchedCount] at h1 h2 ⊢
  omega

/-- `BruteForceDeduplicator.deduplicate` (lines 107-145): all-false `matched`,
empty `duplicates` lists and empty `result`, then the outer loop, then
`result = [self._flatten(img) for img in result]`. -/
def bfDeduplicate (hashes : List (List ℕ)) : Option (List (List ℕ)) :=
  match bfOuter hashes (fun _ => false) (fun _ => []) [] with
  | none => none
  | some (dup, roots) => some (roots.map (flattenF dup hashes.length))

/-- The within-threshold relation as the code evaluates it: indices in range
and `hamming(hash_a, hash_b) * 64 < 10` succeeded with `True`. -/
def nearBF (hashes : List (List ℕ)) (a b : ℕ) : Prop :=
  a < hashes.length ∧ b < hashes.length ∧
    cmpLT10 (hashes.getD a []) (hashes.getD b []) 64 = some true

/-- The within-threshold relation as the spec words it for the default 64-bit
fingerprint: the Hamming distance of the two fingerprints is below 10. -/
def nearHam (hashes : List (List ℕ)) (a b : ℕ) : Prop :=
  a < hashes.length ∧ b < hashes.length ∧
    hammingCount (hashes.getD a []) (hashes.getD b []) < 10

/-- Reachability along the `duplicates` edges (`c ∈ dup p`: image `c` was
appended to the `duplicates` list of image `p`). -/
def dupReach (dup : ℕ → List ℕ) : ℕ → ℕ → Prop :=
  Relation.ReflTransGen (fun p c => c ∈ dup p)

/-- How many times image `j` occurs in the root list plus all `duplicates`
lists of images `< n`: the occupancy of `j` in the output forest. -/
def occCount (n : ℕ) (dup : ℕ → List ℕ) (roots : List ℕ) (j : ℕ) : ℕ :=
  roots.count j + ((List.range n).map (fun p => (dup p).count j)).sum

/-- The full insertion history of the single shared `hash_table` after the
first `t` images: for each image in order, one entry `(image, key)` per band,
in band order. -/
def lshKeyHist (proj : List (List ℕ)) (hashes : List (List ℕ)) (t : ℕ) :
    List (ℕ × String) :=
  (List.range t).flatMap
    (fun i => proj.map (fun g => (i, (bandKey (hashes.getD i []) g).getD "")))

/-- Unfolding equation of the outer loop of the brute-force clusterer. -/
theorem bfOuter_eq (hashes : List (List ℕ)) (m : ℕ → Bool) (dup : ℕ → List ℕ)
    (roots : List ℕ) :
    bfOuter hashes m dup roots =
      match (List.range hashes.length).find? (fun j => !(m j)) with
      | none => some (dup, roots)
      | some r =>
        match bfsLoop hashes (fun x => if x = r then true else m x) [r] dup with
        | none => none
        | some (m', dup') => bfOuter hashes m' dup' (roots ++ [r]) := by
  rw [bfOuter]
  rcases hf : (List.range hashes.length).find? (fun j => !(m j)) with _ | r
  · simp only [hf]
  · simp only [hf]
    rcases hl : bfsLoop hashes (fun x => if x = r then true else m x) [r] dup
      with _ | ⟨m', dup'⟩
    · simp only [hl]
    · simp only [hl]

/-- The count of differing positions is symmetric. -/
theorem hammingCount_comm (a : List ℕ) :
    ∀ b : List ℕ, hammingCount a b = hammingCount b a := by
  induction a with
  | nil => intro b; cases b <;> rfl
  | cons x a ih =>
    intro b
    cases b with
    | nil => rfl
    | cons y b =>
      simp only [hammingCount, List.zipWith_cons_cons, List.sum_cons] at *
      rw [ih b]
      by_cases h : x = y
      · simp [h]
      · have h' : ¬ (y = x) := fun hyx => h hyx.symm
        simp [h, h']

/-- The count of differing positions is at most the common length. -/
theorem hammingCount_le_length (a : List ℕ) :
    ∀ b : List ℕ, hammingCount a b ≤ a.length := by
  induction a with
  | nil => intro b; simp [hammingCount]
  | cons x a ih =>
    intro b
    cases b with
    | nil => simp [hammingCount]
    | cons y b =>
      simp only [hammingCount, List.zipWith_cons_cons, List.sum_cons, List.length_cons]
      have hb := ih b
      simp only [hammingCount] at hb
      by_cases h : x = y
      · have h0 : (if x = y then (0 : ℕ) else 1) = 0 := if_pos h
        rw [h0]
        omega
      · have h0 : (if x = y then (0 : ℕ) else 1) = 1 := if_neg h
        rw [h0]
        omega

/-- A fingerprint differs from itself at no position. -/
theorem hammingCount_self (a : List ℕ) : hammingCount a a = 0 := by
  induction a with
  | nil => rfl
  | cons x a ih =>
    simp only [hammingCount, List.zipWith_cons_cons, List.sum_cons, eq_self_iff_true,
      if_true]
    simp only [hammingCount] at ih
    omega

/-- The comparison fails exactly when the fingerprints have unequal lengths. -/
theorem cmpLT10_eq_none_iff (a b : List ℕ) (mult : ℕ) :
    cmpLT10 a b mult = none ↔ a.length ≠ b.length := by
  unfold cmpLT10
  by_cases h : a.length = b.length <;> simp [h]

/-- On equal lengths the comparison succeeds with the exact threshold test. -/
theorem cmpLT10_eq_some (a b : List ℕ) (mult : ℕ) (h : a.length = b.length) :
    cmpLT10 a b mult = some (decide (hammingCount a b * mult < 10 * a.length)) := by
  unfold cmpLT10
  simp [h]

/-- The threshold test is symmetric in the two fingerprints. -/
theorem cmpLT10_symm (a b : List ℕ) (mult : ℕ) :
    cmpLT10 a b mult = some true → cmpLT10 b a mult = some true := by
  unfold cmpLT10
  by_cases h : a.length = b.length
  · rw [if_pos h, if_pos h.symm, hammingCount_comm b a, ← h]
    intro hsome
    exact hsome
  · rw [if_neg h]
    intro hsome
    cases hsome

/-- Indexing into the row-major flattening of a list of equal-length rows. -/
theorem flatten_getElem_rows {α : Type} (s : ℕ) :
    ∀ (L : List (List α)) (i j : ℕ), (∀ l ∈ L, l.length = s) → j < s →
      (hi : i < L.length) → L.flatten[i * s + j]? = (L.get ⟨i, hi⟩)[j]? := by
  intro L
  induction L with
  | nil => intro i j _ _ hi; cases hi
  | cons a L ih =>
    intro i j hlen hj hi
    cases i with
    | zero =>
      have ha : a.length = s := hlen a (List.mem_cons_self a L)
      simp only [List.flatten_cons, List.getElem?_append, Nat.zero_mul, Nat.zero_add,
        ha, hj, if_pos]
      rfl
    | succ i =>
      have ha : a.length = s := hlen a (List.mem_cons_self a L)
      have hidx : (i + 1) * s + j = a.length + (i * s + j) := by
        rw [ha]; ring
      have hi' : i < L.length := Nat.lt_of_succ_lt_succ hi
      rw [List.flatten_cons, hidx, List.getElem?_append_right (by omega),
        Nat.add_sub_cancel_left]
      exact ih i j (fun l hl => hlen l (List.mem_cons_of_mem a hl)) hj hi'

/-- The fingerprint produced by `dhash` has exactly `s * s` entries. -/
theorem dhash_length (s : ℕ) (resized : ℕ → ℕ → ℕ) :
    (dhash s resized).length = s * s := by
  unfold dhash
  rw [List.length_flatten]
  have h1 : ∀ l ∈ ((List.range s).map (fun i =>
      (List.range s).map (fun j => if resized i j < resized i (j + 1) then 1 else 0))),
      l.length = s := by
    intro l hl
    rcases List.mem_map.1 hl with ⟨i, _, rfl⟩
    simp
  rw [List.map_map]
  have h2 : (List.map (List.length ∘ fun i =>
      (List.range s).map (fun j => if resized i j < resized i (j + 1) then 1 else 0))
      (List.range s)) = List.map (fun _ => s) (List.range s) := by
    apply List.map_congr_left
    intro i _
    simp
  rw [h2, List.map_const', List.sum_replicate, smul_eq_mul, List.length_range, mul_comm]

/-- Every entry of a `dhash` fingerprint is a bit. -/
theorem dhash_bits (s : ℕ) (resized : ℕ → ℕ → ℕ) :
    ∀ b ∈ dhash s resized, b = 0 ∨ b = 1 := by
  intro b hb
  unfold dhash at hb
  rcases List.mem_flatten.1 hb with ⟨l, hl, hbl⟩
  rcases List.mem_map.1 hl with ⟨i, _, rfl⟩
  rcases List.mem_map.1 hbl with ⟨j, _, rfl⟩
  by_cases h : resized i j < resized i (j + 1)
  · right; simp [h]
  · left; simp [h]

/-- Entry `(i, j)` of a `dhash` fingerprint compares the sample at column
`j + 1` with the one at column `j` of row `i`. -/
theorem dhash_getElem (s : ℕ) (resized : ℕ → ℕ → ℕ) (i j : ℕ)
    (hi : i < s) (hj : j < s) :
    (dhash s resized)[i * s + j]? =
      some (if resized i j < resized i (j + 1) then 1 else 0) := by
  unfold dhash
  have hi' : i < ((List.range s).map (fun i =>
      (List.range s).map (fun j => if resized i j < resized i (j + 1) then 1 else 0))).length := by
    simpa using hi
  rw [flatten_getElem_rows s _ i j ?hlen hj hi']
  case hlen =>
    intro l hl
    rcases List.mem_map.1 hl with ⟨x, _, rfl⟩
    simp
  rw [List.get_eq_getElem, List.getElem_map, List.getElem_range, List.getElem?_map,
    List.getElem?_range hj]
  rfl

/-- Summing a function over a duplicate-free list after bumping its value at
one member by `δ` adds `δ` to the total. -/
theorem sum_map_update (f : ℕ → ℕ) (c δ : ℕ) :
    ∀ l : List ℕ, l.Nodup → c ∈ l →
      (l.map (fun x => if x = c then f x + δ else f x)).sum = (l.map f).sum + δ := by
  intro l
  induction l with
  | nil => intro _ hc; cases hc
  | cons a l ih =>
    intro hnd hc
    by_cases hac : a = c
    · subst hac
      have ha : a ∉ l := (List.nodup_cons.1 hnd).1
      have h1 : l.map (fun x => if x = a then f x + δ else f x) = l.map f := by
        apply List.map_congr_left
        intro x hx
        have hxa : x ≠ a := fun h => ha (h ▸ hx)
        simp [hxa]
      simp only [List.map_cons, List.sum_cons, h1, eq_self_iff_true, if_true]
      omega
    · have hc' : c ∈ l := by
        rcases List.mem_cons.1 hc with h | h
        · exact absurd h.symm hac
        · exact h
      have h2 := ih (List.nodup_cons.1 hnd).2 hc'
      simp only [List.map_cons, List.sum_cons, if_neg hac, h2]
      omega

/-- Two distinct members of a duplicate-free list contribute separately to a
sum over the list. -/
theorem sum_map_two_le (f : ℕ → ℕ) (p p' : ℕ) (hne : p ≠ p') :
    ∀ l : List ℕ, p ∈ l → p' ∈ l → f p + f p' ≤ (l.map f).sum := by
  intro l
  induction l with
  | nil => intro hp; cases hp
  | cons a l ih =>
    intro hp hp'
    simp only [List.map_cons, List.sum_cons]
    by_cases hap : a = p
    · subst hap
      have hp'l : p' ∈ l := by
        rcases List.mem_cons.1 hp' with h | h
        · exact absurd h (fun hh => hne hh.symm)
        · exact h
      have : f p' ≤ (l.map f).sum := List.single_le_sum (by simp) _
        (List.mem_map.2 ⟨p', hp'l, rfl⟩)
      omega
    · by_cases hap' : a = p'
      · subst hap'
        have hpl : p ∈ l := by
          rcases List.mem_cons.1 hp with h | h
          · exact absurd h.symm hap
          · exact h
        have : f p ≤ (l.map f).sum := List.single_le_sum (by simp) _
          (List.mem_map.2 ⟨p, hpl, rfl⟩)
        omega
      · have hpl : p ∈ l := by
          rcases List.mem_cons.1 hp with h | h
          · exact absurd h.symm hap
          · exact h
        have hp'l : p' ∈ l := by
          rcases List.mem_cons.1 hp' with h | h
          · exact absurd h.symm hap'
          · exact h
        have := ih hpl hp'l
        omega

/-- A member of a duplicate-free list at which the function is `1` while it is
`0` at all other members gives a sum of exactly `1`. -/
theorem sum_map_indicator (f : ℕ → ℕ) (c : ℕ) :
    ∀ l : List ℕ, l.Nodup → c ∈ l → f c = 1 → (∀ x ∈ l, x ≠ c → f x = 0) →
      (l.map f).sum = 1 := by
  intro l
  induction l with
  | nil => intro _ hc; cases hc
  | cons a l ih =>
    intro hnd hc hfc hz
    simp only [List.map_cons, List.sum_cons]
    by_cases hac : a = c
    · subst hac
      have ha : a ∉ l := (List.nodup_cons.1 hnd).1
      have h0 : (l.map f).sum = 0 := by
        apply List.sum_eq_zero
        intro x hx
        rcases List.mem_map.1 hx with ⟨y, hy, rfl⟩
        exact hz y (List.mem_cons_of_mem a hy) (fun h => ha (h ▸ hy))
      omega
    · have hc' : c ∈ l := by
        rcases List.mem_cons.1 hc with h | h
        · exact absurd h.symm hac
        · exact h
      have h1 := ih (List.nodup_cons.1 hnd).2 hc' hfc
        (fun x hx hxc => hz x (List.mem_cons_of_mem a hx) hxc)
      have h2 : f a = 0 := hz a (List.mem_cons_self a l) hac
      omega

/-- A sum over a list is zero when the function is zero at every member. -/
theorem sum_map_zero (f : ℕ → ℕ) (l : List ℕ) (hz : ∀ x ∈ l, f x = 0) :
    (l.map f).sum = 0 := by
  apply List.sum_eq_zero
  intro x hx
  rcases List.mem_map.1 hx with ⟨y, hy, rfl⟩
  exact hz y hy

/-- Rank decreases (weakly) along duplicate-reachability. -/
theorem dupReach_rk (dup : ℕ → List ℕ) (rk : ℕ → ℕ)
    (hdec : ∀ p c, c ∈ dup p → rk c < rk p) :
    ∀ a b, dupReach dup a b → rk b ≤ rk a := by
  intro a b h
  induction h with
  | refl => exact le_refl _
  | tail _ hbc ih => exact le_trans (le_of_lt (hdec _ _ hbc)) ih

/-- In a unique-parent forest, two ancestors of one node are comparable. -/
theorem dupReach_access (dup : ℕ → List ℕ)
    (hup : ∀ p p' c, c ∈ dup p → c ∈ dup p' → p = p') :
    ∀ c j, dupReach dup c j → ∀ c', dupReach dup c' j →
      dupReach dup c c' ∨ dupReach dup c' c := by
  intro c j h
  induction h with
  | refl =>
    intro c' h'
    exact Or.inr h'
  | tail hcb hbj ih =>
    rename_i b j₀
    intro c' h'
    rcases Relation.ReflTransGen.cases_tail h' with rfl | ⟨p', hc'p', hp'j⟩
    · exact Or.inl (Relation.ReflTransGen.tail hcb hbj)
    · have hbp' : b = p' := hup _ _ _ hbj hp'j
      exact ih c' (hbp' ▸ hc'p')

/-- The flattening of one root is never empty (it starts with the root). -/
theorem flattenF_ne_nil (dup : ℕ → List ℕ) (fuel a : ℕ) :
    flattenF dup fuel a ≠ [] := by
  cases fuel <;> simp [flattenF]

/-- With enough fuel, membership in a flattened tree is reachability from its
root along the `duplicates` edges. -/
theorem flattenF_mem (dup : ℕ → List ℕ) (rk : ℕ → ℕ)
    (hdec : ∀ p c, c ∈ dup p → rk c < rk p) :
    ∀ (fuel a : ℕ), rk a < fuel →
      ∀ j, j ∈ flattenF dup fuel a ↔ dupReach dup a j := by
  intro fuel
  induction fuel with
  | zero => intro a ha; omega
  | succ f ih =>
    intro a ha j
    simp only [flattenF, List.mem_cons, List.mem_flatten]
    constructor
    · rintro (rfl | ⟨l, hl, hj⟩)
      · exact Relation.ReflTransGen.refl
      · rcases List.mem_map.1 hl with ⟨c, hc, rfl⟩
        have hc' : rk c < f := lt_of_lt_of_le (hdec a c hc) (Nat.lt_succ_iff.1 ha)
        exact Relation.ReflTransGen.head hc ((ih c hc' j).1 hj)
    · intro hr
      rcases Relation.ReflTransGen.cases_head hr with rfl | ⟨c, hc, hcj⟩
      · exact Or.inl rfl
      · refine Or.inr ⟨flattenF dup f c, List.mem_map.2 ⟨c, hc, rfl⟩, ?_⟩
        have hc' : rk c < f := lt_of_lt_of_le (hdec a c hc) (Nat.lt_succ_iff.1 ha)
        exact (ih c hc' j).2 hcj

/-- With enough fuel, a flattened tree of a unique-parent forest lists each
node reachable from its root exactly once, and nothing else. -/
theorem flattenF_count (dup : ℕ → List ℕ) (rk : ℕ → ℕ)
    (hdec : ∀ p c, c ∈ dup p → rk c < rk p)
    (hup : ∀ p p' c, c ∈ dup p → c ∈ dup p' → p = p')
    (hnd1 : ∀ p, (dup p).Nodup) :
    ∀ (fuel a : ℕ), rk a < fuel → ∀ j,
      (dupReach dup a j → (flattenF dup fuel a).count j = 1) ∧
      (¬ dupReach dup a j → (flattenF dup fuel a).count j = 0) := by
  intro fuel
  induction fuel with
  | zero => intro a ha; omega
  | succ f ih =>
    intro a ha j
    have hsub : ∀ c, c ∈ dup a → rk c < f := fun c hc =>
      lt_of_lt_of_le (hdec a c hc) (Nat.lt_succ_iff.1 ha)
    have hcount : (flattenF dup (f + 1) a).count j =
        ((dup a).map (fun c => (flattenF dup f c).count j)).sum +
          (if a == j then 1 else 0) := by
      simp only [flattenF, List.count_cons, List.count_flatten, List.map_map]
      rfl
    constructor
    · intro hr
      rcases Relation.ReflTransGen.cases_head hr with rfl | ⟨c₀, hc₀, hc₀j⟩
      · -- j = a: no child reaches a again
        have hz : ∀ c ∈ dup a, (flattenF dup f c).count a = 0 := by
          intro c hc
          apply (ih c (hsub c hc) a).2
          intro hca
          have h1 := dupReach_rk dup rk hdec c a hca
          have h2 := hdec a c hc
          omega
        rw [hcount, sum_map_zero _ _ hz]
        simp
      · -- j is reached through exactly one child c₀ of a
        have hja : a ≠ j := by
          intro h
          subst h
          have h1 := dupReach_rk dup rk hdec c₀ a hc₀j
          have h2 := hdec a c₀ hc₀
          omega
        have huniq : ∀ c', c' ∈ dup a → c' ≠ c₀ → ¬ dupReach dup c' j := by
          intro c' hc' hne hreach
          rcases dupReach_access dup hup c₀ j hc₀j c' hreach with hacc | hacc
          · rcases Relation.ReflTransGen.cases_tail hacc with heq | ⟨p, hc₀p, hpc'⟩
            · exact hne heq
            · have hpa : p = a := hup _ _ _ hpc' hc'
              subst hpa
              have h1 := dupReach_rk dup rk hdec c₀ p hc₀p
              have h2 := hdec p c₀ hc₀
              omega
          · rcases Relation.ReflTransGen.cases_tail hacc with heq | ⟨p, hc'p, hpc₀⟩
            · exact hne heq.symm
            · have hpa : p = a := hup _ _ _ hpc₀ hc₀
              subst hpa
              have h1 := dupReach_rk dup rk hdec c' p hc'p
              have h2 := hdec p c' hc'
              omega
        have hsum : ((dup a).map (fun c => (flattenF dup f c).count j)).sum = 1 := by
          apply sum_map_indicator _ c₀ (dup a) (hnd1 a) hc₀
          · exact (ih c₀ (hsub c₀ hc₀) j).1 hc₀j
          · intro x hx hxne
            exact (ih x (hsub x hx) j).2 (huniq x hx hxne)
        have hbeq : (a == j) = false := by
          by_cases h : a = j
          · exact absurd h hja
          · simp [h]
        rw [hcount, hsum, hbeq]
        simp
    · intro hnr
      have hja : a ≠ j := fun h => hnr (h ▸ Relation.ReflTransGen.refl)
      have hz : ∀ c ∈ dup a, (flattenF dup f c).count j = 0 := by
        intro c hc
        apply (ih c (hsub c hc) j).2
        intro hcj
        exact hnr (Relation.ReflTransGen.head hc hcj)
      rw [hcount, sum_map_zero _ _ hz]
      simp [hja]

/-- In a state of occupancy one per image, no image has two parents. -/
theorem occ_unique_parent (n : ℕ) (dup : ℕ → List ℕ) (roots : List ℕ)
    (hocc : ∀ j, occCount n dup roots j = if j < n then 1 else 0)
    (hdom : ∀ p c, c ∈ dup p → p < n ∧ c < n) :
    ∀ p p' c, c ∈ dup p → c ∈ dup p' → p = p' := by
  intro p p' c hp hp'
  by_contra hne
  have h1 : 0 < List.count c (dup p) := List.count_pos_iff.2 hp
  have h2 : 0 < List.count c (dup p') := List.count_pos_iff.2 hp'
  have hpn : p < n := (hdom p c hp).1
  have hp'n : p' < n := (hdom p' c hp').1
  have h3 : List.count c (dup p) + List.count c (dup p') ≤
      ((List.range n).map (fun q => List.count c (dup q))).sum :=
    sum_map_two_le (fun q => List.count c (dup q)) p p' hne
      (List.range n) (List.mem_range.2 hpn) (List.mem_range.2 hp'n)
  have h4 := hocc c
  unfold occCount at h4
  by_cases hc : c < n <;> simp only [hc, if_true, if_false] at h4 <;> omega

/-- In a state of occupancy one per image, each `duplicates` list is
duplicate-free. -/
theorem occ_child_nodup (n : ℕ) (dup : ℕ → List ℕ) (roots : List ℕ)
    (hocc : ∀ j, occCount n dup roots j = if j < n then 1 else 0)
    (hdom : ∀ p c, c ∈ dup p → p < n ∧ c < n) :
    ∀ p, (dup p).Nodup := by
  intro p
  by_cases hpn : p < n
  · rw [List.nodup_iff_count_le_one]
    intro c
    have h1 : List.count c (dup p) ≤
        ((List.range n).map (fun q => List.count c (dup q))).sum := by
      apply List.single_le_sum (by intro x hx; omega)
      exact List.mem_map.2 ⟨p, List.mem_range.2 hpn, rfl⟩
    have h4 := hocc c
    unfold occCount at h4
    by_cases hc : c < n <;> simp only [hc, if_true, if_false] at h4 <;> omega
  · have : dup p = [] := by
      rw [List.eq_nil_iff_forall_not_mem]
      intro c hc
      exact hpn (hdom p c hc).1
    rw [this]
    exact List.nodup_nil

/-- In a state of occupancy one per image, the root list is duplicate-free. -/
theorem occ_roots_nodup (n : ℕ) (dup : ℕ → List ℕ) (roots : List ℕ)
    (hocc : ∀ j, occCount n dup roots j = if j < n then 1 else 0) :
    roots.Nodup := by
  rw [List.nodup_iff_count_le_one]
  intro r
  have h4 := hocc r
  unfold occCount at h4
  by_cases hc : r < n <;> simp only [hc, if_true, if_false] at h4 <;> omega

/-- In a state of occupancy one per image, every root is an input image. -/
theorem occ_root_lt (n : ℕ) (dup : ℕ → List ℕ) (roots : List ℕ)
    (hocc : ∀ j, occCount n dup roots j = if j < n then 1 else 0) :
    ∀ r ∈ roots, r < n := by
  intro r hr
  have h1 : 0 < List.count r roots := List.count_pos_iff.2 hr
  have h4 := hocc r
  unfold occCount at h4
  by_cases hc : r < n
  · exact hc
  · simp only [hc, if_false] at h4
    omega

/-- In a state of occupancy one per image, no root is in a `duplicates` list. -/
theorem occ_root_not_child (n : ℕ) (dup : ℕ → List ℕ) (roots : List ℕ)
    (hocc : ∀ j, occCount n dup roots j = if j < n then 1 else 0)
    (hdom : ∀ p c, c ∈ dup p → p < n ∧ c < n) :
    ∀ r ∈ roots, ∀ p, r ∉ dup p := by
  intro r hr p hrp
  have h1 : 0 < List.count r roots := List.count_pos_iff.2 hr
  have h2 : 0 < List.count r (dup p) := List.count_pos_iff.2 hrp
  have hpn : p < n := (hdom p r hrp).1
  have h3 : List.count r (dup p) ≤
      ((List.range n).map (fun q => List.count r (dup q))).sum := by
    apply List.single_le_sum (by intro x hx; omega)
    exact List.mem_map.2 ⟨p, List.mem_range.2 hpn, rfl⟩
  have h4 := hocc r
  unfold occCount at h4
  by_cases hc : r < n <;> simp only [hc, if_true, if_false] at h4 <;> omega

/-- In a state of occupancy one per image, every image is a root or a child. -/
theorem occ_mem (n : ℕ) (dup : ℕ → List ℕ) (roots : List ℕ)
    (hocc : ∀ j, occCount n dup roots j = if j < n then 1 else 0) :
    ∀ j, j < n → j ∈ roots ∨ ∃ p, p < n ∧ j ∈ dup p := by
  intro j hj
  have h4 := hocc j
  unfold occCount at h4
  simp only [hj, if_true] at h4
  by_cases hr : 0 < List.count j roots
  · exact Or.inl (List.count_pos_iff.1 hr)
  · right
    have hsum : ((List.range n).map (fun q => List.count j (dup q))).sum ≠ 0 := by
      omega
    by_contra hnone
    push_neg at hnone
    apply hsum
    apply sum_map_zero
    intro p hp
    have hpn : p < n := List.mem_range.1 hp
    have : j ∉ dup p := fun hmem => hnone p hpn hmem
    exact List.count_eq_zero.2 this

/-- Every image reaches back to some root along the `duplicates` edges. -/
theorem forest_ascend (n : ℕ) (dup : ℕ → List ℕ) (roots : List ℕ) (rk : ℕ → ℕ)
    (hdec : ∀ p c, c ∈ dup p → rk c < rk p)
    (hrk : ∀ j, j < n → rk j < n)
    (hdom : ∀ p c, c ∈ dup p → p < n ∧ c < n)
    (hocc : ∀ j, occCount n dup roots j = if j < n then 1 else 0) :
    ∀ j, j < n → ∃ r ∈ roots, dupReach dup r j := by
  have hk : ∀ k j, j < n → n - rk j ≤ k → ∃ r ∈ roots, dupReach dup r j := by
    intro k
    induction k with
    | zero =>
      intro j hj hle
      have := hrk j hj
      omega
    | succ k ih =>
      intro j hj _
      rcases occ_mem n dup roots hocc j hj with hr | ⟨p, hpn, hjp⟩
      · exact ⟨j, hr, Relation.ReflTransGen.refl⟩
      · have hrkp : rk j < rk p := hdec p j hjp
        have h1 : n - rk p ≤ k := by
          have := hrk p hpn
          omega
        rcases ih p hpn h1 with ⟨r, hr, hreach⟩
        exact ⟨r, hr, Relation.ReflTransGen.tail hreach hjp⟩
  intro j hj
  exact hk n j hj (by omega)

/-- No image is reachable from two distinct roots. -/
theorem forest_root_unique (n : ℕ) (dup : ℕ → List ℕ) (roots : List ℕ)
    (hup : ∀ p p' c, c ∈ dup p → c ∈ dup p' → p = p')
    (hnc : ∀ r ∈ roots, ∀ p, r ∉ dup p) :
    ∀ r r' j, r ∈ roots → r' ∈ roots → dupReach dup r j → dupReach dup r' j →
      r = r' := by
  intro r r' j hr hr' hreach hreach'
  rcases dupReach_access dup hup r j hreach r' hreach' with hacc | hacc
  · rcases Relation.ReflTransGen.cases_tail hacc with heq | ⟨p, _, hp⟩
    · exact heq.symm
    · exact absurd hp (hnc r' hr' p)
  · rcases Relation.ReflTransGen.cases_tail hacc with heq | ⟨p, _, hp⟩
    · exact heq
    · exact absurd hp (hnc r hr p)

/-- Main forest theorem: a rank-decreasing, occupancy-one forest over `n`
images flattens to a partition of the image indices, and two images share a
group exactly when they are reachable from one common root. -/
theorem forest_main (n : ℕ) (dup : ℕ → List ℕ) (roots : List ℕ) (rk : ℕ → ℕ)
    (hdec : ∀ p c, c ∈ dup p → rk c < rk p)
    (hrk : ∀ j, j < n → rk j < n)
    (hdom : ∀ p c, c ∈ dup p → p < n ∧ c < n)
    (hocc : ∀ j, occCount n dup roots j = if j < n then 1 else 0) :
    ((roots.map (flattenF dup n)).flatten.Perm (List.range n)) ∧
    (∀ i j : ℕ, ((∃ g ∈ roots.map (flattenF dup n), i ∈ g ∧ j ∈ g) ↔
       ∃ r ∈ roots, dupReach dup r i ∧ dupReach dup r j)) ∧
    (∀ g ∈ roots.map (flattenF dup n), g ≠ []) := by
  have hup := occ_unique_parent n dup roots hocc hdom
  have hnd1 := occ_child_nodup n dup roots hocc hdom
  have hndr := occ_roots_nodup n dup roots hocc
  have hrlt := occ_root_lt n dup roots hocc
  have hnc := occ_root_not_child n dup roots hocc hdom
  have hreach_lt : ∀ r j, r < n → dupReach dup r j → j < n := by
    intro r j hr hreach
    rcases Relation.ReflTransGen.cases_tail hreach with heq | ⟨p, _, hp⟩
    · omega
    · exact (hdom p j hp).2
  refine ⟨?_, ?_, ?_⟩
  · rw [List.perm_iff_count]
    intro j
    rw [List.count_flatten, List.map_map]
    have hrange : List.count j (List.range n) = if j < n then 1 else 0 := by
      by_cases hj : j < n
      · simp only [hj, if_true]
        have h1 : j ∈ List.range n := List.mem_range.2 hj
        have h2 := (List.nodup_iff_count_le_one.1 (List.nodup_range n)) j
        have h3 := List.count_pos_iff.2 h1
        omega
      · simp only [hj, if_false]
        exact List.count_eq_zero.2 (fun hmem => hj (List.mem_range.1 hmem))
    rw [hrange]
    by_cases hj : j < n
    · simp only [hj, if_true]
      rcases forest_ascend n dup roots rk hdec hrk hdom hocc j hj with ⟨r₀, hr₀, hreach₀⟩
      apply sum_map_indicator _ r₀ roots hndr hr₀
      · exact ((flattenF_count dup rk hdec hup hnd1 n r₀
          (hrk r₀ (hrlt r₀ hr₀)) j).1 hreach₀)
      · intro r hr hrne
        apply (flattenF_count dup rk hdec hup hnd1 n r (hrk r (hrlt r hr)) j).2
        intro hreach
        exact hrne (forest_root_unique n dup roots hup hnc r r₀ j hr hr₀ hreach hreach₀)
    · simp only [hj, if_false]
      apply sum_map_zero
      intro r hr
      apply (flattenF_count dup rk hdec hup hnd1 n r (hrk r (hrlt r hr)) j).2
      intro hreach
      exact hj (hreach_lt r j (hrlt r hr) hreach)
  · intro i j
    constructor
    · rintro ⟨g, hg, hi, hj⟩
      rcases List.mem_map.1 hg with ⟨r, hr, rfl⟩
      have hrkr : rk r < n := hrk r (hrlt r hr)
      exact ⟨r, hr, (flattenF_mem dup rk hdec n r hrkr i).1 hi,
        (flattenF_mem dup rk hdec n r hrkr j).1 hj⟩
    · rintro ⟨r, hr, hri, hrj⟩
      have hrkr : rk r < n := hrk r (hrlt r hr)
      exact ⟨flattenF dup n r, List.mem_map.2 ⟨r, hr, rfl⟩,
        (flattenF_mem dup rk hdec n r hrkr i).2 hri,
        (flattenF_mem dup rk hdec n r hrkr j).2 hrj⟩
  · intro g hg
    rcases List.mem_map.1 hg with ⟨r, _, rfl⟩
    exact flattenF_ne_nil dup n r

/-- With `unique` already false the bucket scan is a no-op (`if not unique:
break` fires at the first candidate). -/
theorem scanBucket_false (hashes : List (List ℕ)) (d i : ℕ) (h : List ℕ)
    (c : ℕ) (cs : List ℕ) (dup : ℕ → List ℕ) :
    scanBucket hashes d i h (c :: cs) dup false = some (dup, false) := by
  simp only [scanBucket, if_true]

/-- The incoming image skips itself in a bucket. -/
theorem scanBucket_skip (hashes : List (List ℕ)) (d : ℕ) (h : List ℕ)
    (c : ℕ) (cs : List ℕ) (dup : ℕ → List ℕ) :
    scanBucket hashes d c h (c :: cs) dup true =
      scanBucket hashes d c h cs dup true := by
  simp only [scanBucket, eq_self_iff_true, if_true]
  rw [if_neg (show ¬ (true = false) by decide)]

/-- A candidate within threshold: attach the incoming image and clear
`unique`. -/
theorem scanBucket_hit (hashes : List (List ℕ)) (d i : ℕ) (h : List ℕ)
    (c : ℕ) (cs : List ℕ) (dup : ℕ → List ℕ)
    (hci : ¬ (c = i)) (hcmp2 : cmpLT10 h (hashes.getD c []) d = some true) :
    scanBucket hashes d i h (c :: cs) dup true =
      scanBucket hashes d i h cs (fun x => if x = c then dup c ++ [i] else dup x)
        false := by
  simp only [scanBucket]
  rw [if_neg (show ¬ (true = false) by decide), if_neg hci, hcmp2]

/-- A candidate out of threshold: move on. -/
theorem scanBucket_miss (hashes : List (List ℕ)) (d i : ℕ) (h : List ℕ)
    (c : ℕ) (cs : List ℕ) (dup : ℕ → List ℕ)
    (hci : ¬ (c = i)) (hcmp2 : cmpLT10 h (hashes.getD c []) d = some false) :
    scanBucket hashes d i h (c :: cs) dup true =
      scanBucket hashes d i h cs dup true := by
  simp only [scanBucket]
  rw [if_neg (show ¬ (true = false) by decide), if_neg hci, hcmp2]

/-- A failed comparison aborts the bucket scan. -/
theorem scanBucket_err (hashes : List (List ℕ)) (d i : ℕ) (h : List ℕ)
    (c : ℕ) (cs : List ℕ) (dup : ℕ → List ℕ)
    (hci : ¬ (c = i)) (hcmp2 : cmpLT10 h (hashes.getD c []) d = none) :
    scanBucket hashes d i h (c :: cs) dup true = none := by
  simp only [scanBucket]
  rw [if_neg (show ¬ (true = false) by decide), if_neg hci, hcmp2]

/-- Behaviour of one bucket scan: with `unique` already false it is a no-op;
with `unique` true it either finds no match or attaches the incoming image to
the first matching candidate and clears `unique`.  All comparisons succeed
because every candidate's fingerprint has the incoming fingerprint's length. -/
theorem scanBucket_spec (hashes : List (List ℕ)) (d i : ℕ) (h : List ℕ) :
    ∀ (bucket : List ℕ) (dup : ℕ → List ℕ) (u : Bool),
      (∀ c ∈ bucket, c = i ∨ (hashes.getD c []).length = h.length) →
      (u = false → scanBucket hashes d i h bucket dup u = some (dup, false)) ∧
      (u = true → scanBucket hashes d i h bucket dup u = some (dup, true) ∨
        ∃ c ∈ bucket, c ≠ i ∧
          cmpLT10 h (hashes.getD c []) d = some true ∧
          scanBucket hashes d i h bucket dup u =
            some (fun x => if x = c then dup c ++ [i] else dup x, false)) := by
  intro bucket
  induction bucket with
  | nil =>
    intro dup u _
    constructor
    · intro hu; subst hu; rfl
    · intro hu; subst hu; exact Or.inl rfl
  | cons c cs ih =>
    intro dup u hmem
    have hcs : ∀ c' ∈ cs, c' = i ∨ (hashes.getD c' []).length = h.length :=
      fun c' hc' => hmem c' (List.mem_cons_of_mem c hc')
    constructor
    · intro hu
      subst hu
      exact scanBucket_false hashes d i h c cs dup
    · intro hu
      subst hu
      by_cases hci : c = i
      · subst hci
        rw [scanBucket_skip hashes d h c cs dup]
        rcases (ih dup true hcs).2 rfl with hres | ⟨c', hc', hne, hcmp, hres⟩
        · exact Or.inl hres
        · exact Or.inr ⟨c', List.mem_cons_of_mem c hc', hne, hcmp, hres⟩
      · have hlen : (hashes.getD c []).length = h.length := by
          rcases hmem c (List.mem_cons_self c cs) with hc | hc
          · exact absurd hc hci
          · exact hc
        have hcmp : cmpLT10 h (hashes.getD c []) d =
            some (decide (hammingCount h (hashes.getD c []) * d < 10 * h.length)) :=
          cmpLT10_eq_some _ _ _ hlen.symm
        by_cases hd : hammingCount h (hashes.getD c []) * d < 10 * h.length
        · have hcmp2 : cmpLT10 h (hashes.getD c []) d = some true := by
            rw [hcmp]
            simp only [Option.some.injEq, decide_eq_true_eq]
            exact hd
          rw [scanBucket_hit hashes d i h c cs dup hci hcmp2,
            (ih (fun x => if x = c then dup c ++ [i] else dup x) false hcs).1 rfl]
          exact Or.inr ⟨c, List.mem_cons_self c cs, hci, hcmp2, rfl⟩
        · have hcmp2 : cmpLT10 h (hashes.getD c []) d = some false := by
            rw [hcmp]
            simp only [Option.some.injEq, decide_eq_false_iff_not]
            exact hd
          rw [scanBucket_miss hashes d i h c cs dup hci hcmp2]
          rcases (ih dup true hcs).2 rfl with hres | ⟨c', hc', hne, hcmp', hres⟩
          · exact Or.inl hres
          · exact Or.inr ⟨c', List.mem_cons_of_mem c hc', hne, hcmp', hres⟩

/-- When every band position is in bounds the band key is defined. -/
theorem bandKey_isSome (h g : List ℕ) (hb : ∀ p ∈ g, p < h.length) :
    bandKey h g = some (String.join (g.map (fun p => toString (h.getD p 0)))) := by
  unfold bandKey
  rw [if_pos]
  exact List.all_eq_true.2 (fun p hp => decide_eq_true (hb p hp))

/-- Unfolding of one band step when the key is defined and the scan returns. -/
theorem lshBand_eq (hashes : List (List ℕ)) (d i : ℕ) (h : List ℕ)
    (T : String → List ℕ) (dup2 : ℕ → List ℕ) (u : Bool) (g : List ℕ)
    (key : String) (dup3 : ℕ → List ℕ) (u3 : Bool)
    (hkey : bandKey h g = some key)
    (hscan : scanBucket hashes d i h (T key) dup2 u = some (dup3, u3)) :
    lshBand hashes d i h (T, dup2, u) g =
      some (fun s => if s = key then T key ++ [i] else T s, dup3, u3) := by
  simp only [lshBand, hkey, hscan]

/-- Appending one table insertion to the history extends exactly the bucket of
its key. -/
theorem hist_snoc (l : List (ℕ × String)) (t : ℕ) (key s : String) :
    (((l ++ [(t, key)]).filter (fun e => e.2 == s)).map Prod.fst) =
      (if s = key then (((l.filter (fun e => e.2 == s)).map Prod.fst) ++ [t])
       else ((l.filter (fun e => e.2 == s)).map Prod.fst)) := by
  rw [List.filter_append, List.map_append]
  by_cases h : key = s
  · subst h
    simp
  · have h' : ¬ (s = key) := fun hh => h hh.symm
    have hb : (key == s) = false := beq_eq_false_iff_ne.2 h
    have h1 : List.filter (fun e => e.2 == s) [(t, key)] = [] := by
      simp [List.filter, hb]
    rw [h1, if_neg h']
    simp

/-- The band loop of one incoming image `t`: it always succeeds (given
in-bounds bands and equal-length fingerprints), inserts `t` into every band's
bucket of the single shared table, and attaches `t` to at most one earlier
image, which passed the full-fingerprint threshold check. -/
theorem lshBands_fold (hashes proj : List (List ℕ)) (d t L : ℕ)
    (hlen : ∀ c, c < hashes.length → (hashes.getD c []).length = L)
    (hproj : ∀ g ∈ proj, ∀ p ∈ g, p < L)
    (ht : t < hashes.length)
    (dup : ℕ → List ℕ) :
    ∀ (bs π : List (List ℕ)) (T : String → List ℕ) (dup2 : ℕ → List ℕ) (u : Bool),
      proj = π ++ bs →
      (∀ s c, c ∈ T s → c < t ∨ c = t) →
      (∀ s, T s = (((lshKeyHist proj hashes t) ++
          π.map (fun g => (t, (bandKey (hashes.getD t []) g).getD ""))).filter
          (fun e => e.2 == s)).map Prod.fst) →
      ((u = true ∧ dup2 = dup) ∨ (u = false ∧ ∃ c, c < t ∧
        cmpLT10 (hashes.getD t []) (hashes.getD c []) d = some true ∧
        dup2 = fun x => if x = c then dup c ++ [t] else dup x)) →
      ∃ T' dup2' u',
        bs.foldlM (lshBand hashes d t (hashes.getD t [])) (T, dup2, u) =
          some (T', dup2', u') ∧
        (∀ s c, c ∈ T' s → c < t ∨ c = t) ∧
        (∀ s, T' s = (((lshKeyHist proj hashes t) ++
            proj.map (fun g => (t, (bandKey (hashes.getD t []) g).getD ""))).filter
            (fun e => e.2 == s)).map Prod.fst) ∧
        ((u' = true ∧ dup2' = dup) ∨ (u' = false ∧ ∃ c, c < t ∧
          cmpLT10 (hashes.getD t []) (hashes.getD c []) d = some true ∧
          dup2' = fun x => if x = c then dup c ++ [t] else dup x)) := by
  intro bs
  induction bs with
  | nil =>
    intro π T dup2 u hπ hT hhist hdup
    have hπ' : π = proj := by rw [hπ, List.append_nil]
    subst hπ'
    exact ⟨T, dup2, u, rfl, hT, hhist, hdup⟩
  | cons g bs' ih =>
    intro π T dup2 u hπ hT hhist hdup
    have hg : g ∈ proj := by
      rw [hπ]
      exact List.mem_append.2 (Or.inr (List.mem_cons_self g bs'))
    have hL : (hashes.getD t []).length = L := hlen t ht
    have hkey := bandKey_isSome (hashes.getD t []) g
      (by rw [hL]; exact hproj g hg)
    set key := String.join (g.map (fun p => toString ((hashes.getD t []).getD p 0)))
      with hkeydef
    have hbucket : ∀ c ∈ T key, c = t ∨
        (hashes.getD c []).length = (hashes.getD t []).length := by
      intro c hc
      rcases hT key c hc with hlt | heq
      · right
        rw [hlen c (lt_trans hlt ht), hL]
      · exact Or.inl heq
    -- the new table after inserting t into this band's bucket
    have hT₂mem : ∀ s c, c ∈ (fun s => if s = key then T key ++ [t] else T s) s →
        c < t ∨ c = t := by
      intro s c hc
      by_cases hs : s = key
      · simp only [hs, if_pos rfl] at hc
        rcases List.mem_append.1 hc with hc | hc
        · exact hT key c hc
        · simp at hc
          exact Or.inr hc
      · simp only [if_neg hs] at hc
        exact hT s c hc
    have hπ2 : proj = (π ++ [g]) ++ bs' := by
      rw [hπ, List.append_assoc]
      rfl
    have hhist₂ : ∀ s, (fun s => if s = key then T key ++ [t] else T s) s =
        (((lshKeyHist proj hashes t) ++
          (π ++ [g]).map (fun g => (t, (bandKey (hashes.getD t []) g).getD ""))).filter
          (fun e => e.2 == s)).map Prod.fst := by
      intro s
      have hmap : (π ++ [g]).map
          (fun g => (t, (bandKey (hashes.getD t []) g).getD "")) =
          π.map (fun g => (t, (bandKey (hashes.getD t []) g).getD "")) ++ [(t, key)] := by
        rw [List.map_append]
        have h1 : (bandKey (hashes.getD t []) g).getD "" = key := by
          rw [hkey]
          rfl
        simp only [List.map_cons, List.map_nil, h1]
      rw [hmap, ← List.append_assoc, hist_snoc]
      by_cases hs : s = key
      · simp only [hs, if_pos rfl, eq_self_iff_true, if_true]
        rw [← hhist key]
      · simp only [if_neg hs]
        rw [← hhist s]
    rcases hdup with ⟨hu, hdup2⟩ | ⟨hu, c₀, hc₀lt, hc₀cmp, hdup2⟩
    · -- still unique entering this band
      subst hu
      subst hdup2
      rcases (scanBucket_spec hashes d t (hashes.getD t []) (T key) dup2 true
          hbucket).2 rfl with hscan | ⟨c, hcmem, hcne, hccmp, hscan⟩
      · -- no match in this band
        have hband := lshBand_eq hashes d t (hashes.getD t []) T dup2 true g key
          dup2 true hkey hscan
        rcases ih (π ++ [g]) _ dup2 true hπ2 hT₂mem hhist₂ (Or.inl ⟨rfl, rfl⟩) with
          ⟨T', dup2', u', hfold, hmem', hhist', hdup'⟩
        refine ⟨T', dup2', u', ?_, hmem', hhist', hdup'⟩
        rw [List.foldlM_cons, hband]
        exact hfold
      · -- first match: attach t to candidate c
        have hclt : c < t := by
          rcases hT key c hcmem with hlt | heq
          · exact hlt
          · exact absurd heq hcne
        have hband := lshBand_eq hashes d t (hashes.getD t []) T dup2 true g key
          (fun x => if x = c then dup2 c ++ [t] else dup2 x) false hkey hscan
        rcases ih (π ++ [g]) _ _ false hπ2 hT₂mem hhist₂
          (Or.inr ⟨rfl, c, hclt, hccmp, rfl⟩) with
          ⟨T', dup2', u', hfold, hmem', hhist', hdup'⟩
        refine ⟨T', dup2', u', ?_, hmem', hhist', hdup'⟩
        rw [List.foldlM_cons, hband]
        exact hfold
    · -- already matched: the scan is a no-op
      subst hu
      rcases (scanBucket_spec hashes d t (hashes.getD t []) (T key) dup2 false
          hbucket).1 rfl with hscan
      have hband := lshBand_eq hashes d t (hashes.getD t []) T dup2 false g key
        dup2 false hkey hscan
      rcases ih (π ++ [g]) _ dup2 false hπ2 hT₂mem hhist₂
        (Or.inr ⟨rfl, c₀, hc₀lt, hc₀cmp, hdup2⟩) with
        ⟨T', dup2', u', hfold, hmem', hhist', hdup'⟩
      refine ⟨T', dup2', u', ?_, hmem', hhist', hdup'⟩
      rw [List.foldlM_cons, hband]
      exact hfold

/-- Occupancy after appending a new root. -/
theorem occ_add_root (n : ℕ) (dup : ℕ → List ℕ) (roots : List ℕ) (t j : ℕ) :
    occCount n dup (roots ++ [t]) j =
      occCount n dup roots j + (if t = j then 1 else 0) := by
  unfold occCount
  rw [List.count_append, List.count_singleton]
  by_cases h : t = j
  · have hb : (t == j) = true := beq_iff_eq.2 h
    rw [hb]
    simp [h]
    omega
  · have hb : (t == j) = false := beq_eq_false_iff_ne.2 h
    rw [hb]
    simp [h]

/-- Occupancy after attaching a new child `t` to parent `c₀`. -/
theorem occ_add_child (n : ℕ) (dup : ℕ → List ℕ) (roots : List ℕ) (c₀ t j : ℕ)
    (hc₀ : c₀ < n) :
    occCount n (fun x => if x = c₀ then dup c₀ ++ [t] else dup x) roots j =
      occCount n dup roots j + (if t = j then 1 else 0) := by
  unfold occCount
  have hsingle : List.count j [t] = (if t = j then 1 else 0) := by
    rw [List.count_singleton]
    by_cases h : t = j
    · rw [beq_iff_eq.2 h]
      simp [h]
    · rw [beq_eq_false_iff_ne.2 h]
      simp [h]
  have hmap : (List.range n).map
      (fun p => List.count j ((fun x => if x = c₀ then dup c₀ ++ [t] else dup x) p)) =
      (List.range n).map (fun p => if p = c₀ then
        List.count j (dup p) + (if t = j then 1 else 0) else List.count j (dup p)) := by
    apply List.map_congr_left
    intro p _
    by_cases hp : p = c₀
    · subst hp
      simp only [eq_self_iff_true, if_true, List.count_append, hsingle]
    · simp only [if_neg hp]
  rw [hmap, sum_map_update (fun p => List.count j (dup p)) c₀ (if t = j then 1 else 0)
    (List.range n) (List.nodup_range n) (List.mem_range.2 hc₀)]
  omega

/-- Invariant of the LSH main loop after processing the first `t` images:
buckets hold exactly the insertion history of the single shared table;
`duplicates` edges go from an earlier image to a later one and were
threshold-checked on the full fingerprints; every processed image is a root
or a child exactly once. -/
structure LSHInv (proj hashes : List (List ℕ)) (d t : ℕ)
    (table : String → List ℕ) (dup : ℕ → List ℕ) (roots : List ℕ) : Prop where
  table_mem : ∀ s c, c ∈ table s → c < t
  edge_lt : ∀ p c, c ∈ dup p → p < c ∧ c < t
  edge_cmp : ∀ p c, c ∈ dup p →
    cmpLT10 (hashes.getD c []) (hashes.getD p []) d = some true
  occ : ∀ j, occCount hashes.length dup roots j = if j < t then 1 else 0
  roots_lt : ∀ r ∈ roots, r < t
  hist : ∀ s, table s =
    ((lshKeyHist proj hashes t).filter (fun e => e.2 == s)).map Prod.fst

/-- One more image in the history. -/
theorem lshKeyHist_succ (proj hashes : List (List ℕ)) (t : ℕ) :
    lshKeyHist proj hashes (t + 1) = lshKeyHist proj hashes t ++
      proj.map (fun g => (t, (bandKey (hashes.getD t []) g).getD "")) := by
  unfold lshKeyHist
  rw [List.range_succ, List.flatMap_append]
  simp

/-- Processing one image preserves the LSH invariant and always succeeds
(given in-bounds bands and equal-length fingerprints). -/
theorem lshImage_step (hashes proj : List (List ℕ)) (d t L : ℕ)
    (hlen : ∀ c, c < hashes.length → (hashes.getD c []).length = L)
    (hproj : ∀ g ∈ proj, ∀ p ∈ g, p < L)
    (ht : t < hashes.length)
    (table : String → List ℕ) (dup : ℕ → List ℕ) (roots : List ℕ)
    (hinv : LSHInv proj hashes d t table dup roots) :
    ∃ table' dup' roots',
      lshImage hashes proj d (table, dup, roots) t = some (table', dup', roots') ∧
      LSHInv proj hashes d (t + 1) table' dup' roots' := by
  obtain ⟨T', dup2', u', hfold, hmem', hhist', hdup'⟩ :=
    lshBands_fold hashes proj d t L hlen hproj ht dup proj [] table dup true
      (List.nil_append proj).symm
      (fun s c hc => Or.inl (hinv.table_mem s c hc))
      (by
        intro s
        rw [hinv.hist s]
        simp)
      (Or.inl ⟨rfl, rfl⟩)
  have hrun : lshImage hashes proj d (table, dup, roots) t =
      some (T', dup2', if u' then roots ++ [t] else roots) := by
    simp only [lshImage, hfold]
  have htable' : ∀ s c, c ∈ T' s → c < t + 1 := by
    intro s c hc
    rcases hmem' s c hc with h | h <;> omega
  have hhist'' : ∀ s, T' s =
      ((lshKeyHist proj hashes (t + 1)).filter (fun e => e.2 == s)).map Prod.fst := by
    intro s
    rw [lshKeyHist_succ, hhist' s]
  rcases hdup' with ⟨hu, hdup2⟩ | ⟨hu, c₀, hc₀lt, hc₀cmp, hdup2⟩
  · -- unique: becomes a new root
    subst hu
    subst dup2'
    refine ⟨T', dup, roots ++ [t], by simpa using hrun, ?_⟩
    refine ⟨htable', ?_, ?_, ?_, ?_, hhist''⟩
    · intro p c hc
      have := hinv.edge_lt p c hc
      omega
    · exact hinv.edge_cmp
    · intro j
      rw [occ_add_root, hinv.occ j]
      by_cases hj : t = j
      · subst hj
        simp
      · simp only [hj, if_neg, add_zero]
        by_cases hjt : j < t
        · have : j < t + 1 := by omega
          simp [hjt, this]
        · have : ¬ (j < t + 1) := by omega
          simp [hjt, this]
    · intro r hr
      rcases List.mem_append.1 hr with hr | hr
      · have := hinv.roots_lt r hr
        omega
      · simp at hr
        omega
  · -- matched: attached as child of c₀
    subst hu
    refine ⟨T', dup2', roots, by simpa using hrun, ?_⟩
    refine ⟨htable', ?_, ?_, ?_, ?_, hhist''⟩
    · intro p c hc
      rw [hdup2] at hc
      by_cases hp : p = c₀
      · subst hp
        simp only [eq_self_iff_true, if_true] at hc
        rcases List.mem_append.1 hc with hc | hc
        · have := hinv.edge_lt p c hc
          omega
        · simp at hc
          omega
      · simp only [if_neg hp] at hc
        have := hinv.edge_lt p c hc
        omega
    · intro p c hc
      rw [hdup2] at hc
      by_cases hp : p = c₀
      · subst hp
        simp only [eq_self_iff_true, if_true] at hc
        rcases List.mem_append.1 hc with hc | hc
        · exact hinv.edge_cmp p c hc
        · simp at hc
          subst hc
          exact hc₀cmp
      · simp only [if_neg hp] at hc
        exact hinv.edge_cmp p c hc
    · intro j
      rw [hdup2, occ_add_child hashes.length dup roots c₀ t j (by omega),
        hinv.occ j]
      by_cases hj : t = j
      · subst hj
        simp
      · simp only [hj, if_neg, add_zero]
        by_cases hjt : j < t
        · have : j < t + 1 := by omega
          simp [hjt, this]
        · have : ¬ (j < t + 1) := by omega
          simp [hjt, this]
    · intro r hr
      have := hinv.roots_lt r hr
      omega

/-- The LSH main loop succeeds on every prefix and maintains the invariant. -/
theorem lshRun_inv (hashes proj : List (List ℕ)) (d L : ℕ)
    (hlen : ∀ c, c < hashes.length → (hashes.getD c []).length = L)
    (hproj : ∀ g ∈ proj, ∀ p ∈ g, p < L) :
    ∀ t, t ≤ hashes.length →
      ∃ table dup roots,
        (List.range t).foldlM (lshImage hashes proj d)
          (fun _ => [], fun _ => [], []) = some (table, dup, roots) ∧
        LSHInv proj hashes d t table dup roots := by
  intro t
  induction t with
  | zero =>
    intro _
    refine ⟨fun _ => [], fun _ => [], [], rfl, ?_⟩
    refine ⟨?_, ?_, ?_, ?_, ?_, ?_⟩
    · intro s c hc; cases hc
    · intro p c hc; cases hc
    · intro p c hc; cases hc
    · intro j
      unfold occCount
      rw [sum_map_zero _ _ (fun p _ => List.count_nil j)]
      simp
    · intro r hr; cases hr
    · intro s
      unfold lshKeyHist
      simp
  | succ t ih =>
    intro ht
    obtain ⟨table, dup, roots, hfold, hinv⟩ := ih (by omega)
    obtain ⟨table', dup', roots', hstep, hinv'⟩ :=
      lshImage_step hashes proj d t L hlen hproj (by omega) table dup roots hinv
    refine ⟨table', dup', roots', ?_, hinv'⟩
    rw [List.range_succ, List.foldlM_append, hfold]
    simp only [Option.bind_eq_bind, Option.some_bind, List.foldlM_cons, hstep,
      List.foldlM_nil]
    rfl

/-- A fingerprint read by index is one of the input fingerprints. -/
theorem getD_length (hashes : List (List ℕ)) (L : ℕ)
    (hlen : ∀ h' ∈ hashes, h'.length = L) :
    ∀ c, c < hashes.length → (hashes.getD c []).length = L := by
  intro c hc
  apply hlen
  rw [List.getD_eq_getElem hashes [] hc]
  exact List.getElem_mem hc

/-- Full success of `LSHDeduplicator.deduplicate` together with its final
invariant, for equal-length fingerprints and in-bounds bands. -/
theorem lshDeduplicate_spec (hashes proj : List (List ℕ)) (d L : ℕ)
    (hlen : ∀ h' ∈ hashes, h'.length = L)
    (hproj : ∀ g ∈ proj, ∀ p ∈ g, p < L) :
    ∃ table dup roots,
      lshRun proj d hashes = some (table, dup, roots) ∧
      LSHInv proj hashes d hashes.length table dup roots ∧
      lshDeduplicate proj d hashes =
        some (roots.map (flattenF dup hashes.length)) := by
  obtain ⟨table, dup, roots, hfold, hinv⟩ :=
    lshRun_inv hashes proj d L (getD_length hashes L hlen) hproj
      hashes.length (le_refl _)
  have hrun : lshRun proj d hashes = some (table, dup, roots) := hfold
  refine ⟨table, dup, roots, hrun, hinv, ?_⟩
  unfold lshDeduplicate
  rw [hrun]

/-- The clustering facts about the LSH output forest: every parent-child edge
was threshold-checked, the flattened groups are a partition of the images,
and two images share a group exactly when a common root reaches both. -/
theorem lshGroups_spec (hashes proj : List (List ℕ)) (d L : ℕ)
    (hlen : ∀ h' ∈ hashes, h'.length = L)
    (hproj : ∀ g ∈ proj, ∀ p ∈ g, p < L) :
    ∃ dup roots,
      lshDeduplicate proj d hashes =
        some (roots.map (flattenF dup hashes.length)) ∧
      (∀ p c, c ∈ dup p →
        cmpLT10 (hashes.getD c []) (hashes.getD p []) d = some true) ∧
      (∀ p c, c ∈ dup p → p < c ∧ c < hashes.length) ∧
      (∀ j, occCount hashes.length dup roots j =
        if j < hashes.length then 1 else 0) ∧
      ((roots.map (flattenF dup hashes.length)).flatten.Perm
        (List.range hashes.length)) ∧
      (∀ i j : ℕ, ((∃ g ∈ roots.map (flattenF dup hashes.length),
          i ∈ g ∧ j ∈ g) ↔ ∃ r ∈ roots, dupReach dup r i ∧ dupReach dup r j)) ∧
      (∀ g ∈ roots.map (flattenF dup hashes.length), g ≠ []) := by
  obtain ⟨table, dup, roots, hrun, hinv, hded⟩ :=
    lshDeduplicate_spec hashes proj d L hlen hproj
  have hforest := forest_main hashes.length dup roots
    (fun j => hashes.length - 1 - j)
    (by
      intro p c hc
      have := hinv.edge_lt p c hc
      show hashes.length - 1 - c < hashes.length - 1 - p
      omega)
    (by
      intro j hj
      show hashes.length - 1 - j < hashes.length
      omega)
    (by
      intro p c hc
      have := hinv.edge_lt p c hc
      omega)
    hinv.occ
  exact ⟨dup, roots, hded, hinv.edge_cmp,
    (fun p c hc => hinv.edge_lt p c hc), hinv.occ,
    hforest.1, hforest.2.1, hforest.2.2⟩

/-- The code's within-threshold relation is symmetric. -/
theorem nearBF_symm (hashes : List (List ℕ)) (a b : ℕ) :
    nearBF hashes a b → nearBF hashes b a := by
  rintro ⟨ha, hb, hcmp⟩
  exact ⟨hb, ha, cmpLT10_symm _ _ _ hcmp⟩

/-- Reachability is monotone in the edge sets. -/
theorem dupReach_mono (dup dup' : ℕ → List ℕ)
    (hsub : ∀ a c, c ∈ dup a → c ∈ dup' a) :
    ∀ a b, dupReach dup a b → dupReach dup' a b := by
  intro a b h
  induction h with
  | refl => exact Relation.ReflTransGen.refl
  | tail _ hbc ih => exact Relation.ReflTransGen.tail ih (hsub _ _ hbc)

/-- The unmatched count never exceeds the number of images. -/
theorem unmatchedCount_le (n : ℕ) (m : ℕ → Bool) : unmatchedCount n m ≤ n := by
  unfold unmatchedCount
  calc (List.range n).countP (fun j => !(m j)) ≤ (List.range n).length :=
        List.countP_le_length _
    _ = n := List.length_range n

/-- Skipped candidate in the brute-force scan. -/
theorem bfScan_skip (hashes : List (List ℕ)) (p : ℕ) (hp : List ℕ) (i : ℕ)
    (is : List ℕ) (m : ℕ → Bool) (dup : ℕ → List ℕ) (adds : List ℕ)
    (hcond : p = i ∨ m i = true) :
    bfScan hashes p hp (i :: is) m dup adds = bfScan hashes p hp is m dup adds := by
  simp only [bfScan]
  rw [if_pos hcond]

/-- In-threshold candidate in the brute-force scan: attach, mark, enqueue. -/
theorem bfScan_hit (hashes : List (List ℕ)) (p : ℕ) (hp : List ℕ) (i : ℕ)
    (is : List ℕ) (m : ℕ → Bool) (dup : ℕ → List ℕ) (adds : List ℕ)
    (hcond : ¬ (p = i ∨ m i = true))
    (hcmp : cmpLT10 hp (hashes.getD i []) 64 = some true) :
    bfScan hashes p hp (i :: is) m dup adds =
      bfScan hashes p hp is (fun x => if x = i then true else m x)
        (fun x => if x = p then dup p ++ [i] else dup x) (adds ++ [i]) := by
  simp only [bfScan]
  rw [if_neg hcond, hcmp]

/-- Out-of-threshold candidate in the brute-force scan. -/
theorem bfScan_miss (hashes : List (List ℕ)) (p : ℕ) (hp : List ℕ) (i : ℕ)
    (is : List ℕ) (m : ℕ → Bool) (dup : ℕ → List ℕ) (adds : List ℕ)
    (hcond : ¬ (p = i ∨ m i = true))
    (hcmp : cmpLT10 hp (hashes.getD i []) 64 = some false) :
    bfScan hashes p hp (i :: is) m dup adds = bfScan hashes p hp is m dup adds := by
  simp only [bfScan]
  rw [if_neg hcond, hcmp]

/-- A failed comparison aborts the brute-force scan. -/
theorem bfScan_err (hashes : List (List ℕ)) (p : ℕ) (hp : List ℕ) (i : ℕ)
    (is : List ℕ) (m : ℕ → Bool) (dup : ℕ → List ℕ) (adds : List ℕ)
    (hcond : ¬ (p = i ∨ m i = true))
    (hcmp : cmpLT10 hp (hashes.getD i []) 64 = none) :
    bfScan hashes p hp (i :: is) m dup adds = none := by
  simp only [bfScan]
  rw [if_neg hcond, hcmp]

/-- Invariant of the brute-force clusterer's mutable state: edges were
threshold-checked between matched images, ranks witness acyclicity, and each
matched image occupies the forest exactly once. -/
structure BFCore (hashes : List (List ℕ)) (m : ℕ → Bool) (dup : ℕ → List ℕ)
    (roots : List ℕ) : Prop where
  matched_lt : ∀ j, m j = true → j < hashes.length
  rkex : ∃ rk : ℕ → ℕ, (∀ p c, c ∈ dup p → rk c < rk p) ∧
    (∀ j, m j = true → unmatchedCount hashes.length m ≤ rk j ∧ rk j < hashes.length)
  edges : ∀ p c, c ∈ dup p → m p = true ∧ m c = true ∧
    cmpLT10 (hashes.getD p []) (hashes.getD c []) 64 = some true
  occ : ∀ j, occCount hashes.length dup roots j = if m j = true then 1 else 0
  roots_lt : ∀ r ∈ roots, r < hashes.length

/-- Every matched image that is no longer queued already has all its
within-threshold neighbours matched into the same root's tree. -/
def bfClosed (hashes : List (List ℕ)) (m : ℕ → Bool) (q : List ℕ)
    (dup : ℕ → List ℕ) (roots : List ℕ) : Prop :=
  ∀ a, m a = true → a ∈ q ∨ ∀ b, nearBF hashes a b → m b = true ∧
    ∃ rt ∈ roots, dupReach dup rt a ∧ dupReach dup rt b

/-- An unmatched image has no edges and is in no list yet. -/
theorem bfCore_unmatched_clean (hashes : List (List ℕ)) (m : ℕ → Bool)
    (dup : ℕ → List ℕ) (roots : List ℕ) (hcore : BFCore hashes m dup roots) :
    ∀ j, m j = false → (dup j = [] ∧ ∀ a, j ∉ dup a) := by
  intro j hj
  constructor
  · rw [List.eq_nil_iff_forall_not_mem]
    intro c hc
    have := (hcore.edges j c hc).1
    rw [hj] at this
    cases this
  · intro a ha
    have := (hcore.edges a j ha).2.1
    rw [hj] at this
    cases this

/-- Full specification of the inner scan of the brute-force clusterer: it
succeeds (on equal-length fingerprints), preserves the core invariant, only
marks new images by attaching them as children of the dequeued image `p`, and
afterwards every scanned index is `p` itself, matched, or out of threshold. -/
theorem bfScan_spec (hashes : List (List ℕ)) (L : ℕ)
    (hlen : ∀ c, c < hashes.length → (hashes.getD c []).length = L)
    (roots : List ℕ) (p : ℕ) (hpn : p < hashes.length) :
    ∀ (is : List ℕ) (m : ℕ → Bool) (dup : ℕ → List ℕ) (adds : List ℕ),
      (∀ i ∈ is, i < hashes.length) →
      m p = true →
      BFCore hashes m dup roots →
      ∃ m' dup' adds',
        bfScan hashes p (hashes.getD p []) is m dup adds = some (m', dup', adds') ∧
        BFCore hashes m' dup' roots ∧
        (∀ x, m x = true → m' x = true) ∧
        (∀ x, m' x = true → m x = true ∨ x ∈ adds') ∧
        (∀ x ∈ adds, x ∈ adds') ∧
        (∀ x ∈ adds', x ∈ adds ∨ (m x = false ∧ m' x = true ∧ x ∈ dup' p)) ∧
        (∀ a c, c ∈ dup a → c ∈ dup' a) ∧
        (∀ b ∈ is, b = p ∨ m' b = true ∨
          cmpLT10 (hashes.getD p []) (hashes.getD b []) 64 = some false) := by
  intro is
  induction is with
  | nil =>
    intro m dup adds _ hmp hcore
    exact ⟨m, dup, adds, rfl, hcore, fun x hx => hx, fun x hx => Or.inl hx,
      fun x hx => hx, fun x hx => Or.inl hx, fun a c hc => hc,
      fun b hb => absurd hb (List.not_mem_nil b)⟩
  | cons i is' ih =>
    intro m dup adds hlt hmp hcore
    have hlt' : ∀ x ∈ is', x < hashes.length :=
      fun x hx => hlt x (List.mem_cons_of_mem i hx)
    have hin : i < hashes.length := hlt i (List.mem_cons_self i is')
    by_cases hcond : p = i ∨ m i = true
    · -- skipped: the image itself or already matched
      rw [bfScan_skip hashes p (hashes.getD p []) i is' m dup adds hcond]
      obtain ⟨m', dup', adds', heq, hcore', hmono, hnew, haddsub, haddchar,
        hdmono, hcover⟩ := ih m dup adds hlt' hmp hcore
      refine ⟨m', dup', adds', heq, hcore', hmono, hnew, haddsub, haddchar,
        hdmono, ?_⟩
      intro b hb
      rcases List.mem_cons.1 hb with rfl | hb'
      · rcases hcond with hcond | hcond
        · exact Or.inl hcond.symm
        · exact Or.inr (Or.inl (hmono b hcond))
      · exact hcover b hb'
    · -- fresh unmatched candidate: compare
      have hmi : m i = false := by
        rcases Bool.eq_false_or_eq_true (m i) with h | h
        · exact absurd (Or.inr h) hcond
        · exact h
      have hpi : p ≠ i := fun h => hcond (Or.inl h)
      have hip : ¬ (i = p) := fun h => hpi h.symm
      have hcmp : cmpLT10 (hashes.getD p []) (hashes.getD i []) 64 =
          some (decide (hammingCount (hashes.getD p []) (hashes.getD i []) * 64 <
            10 * (hashes.getD p []).length)) := by
        apply cmpLT10_eq_some
        rw [hlen p hpn, hlen i hin]
      by_cases hd : hammingCount (hashes.getD p []) (hashes.getD i []) * 64 <
          10 * (hashes.getD p []).length
      · -- within threshold: attach i to p
        have hcmpT : cmpLT10 (hashes.getD p []) (hashes.getD i []) 64 =
            some true := by
          rw [hcmp]
          simp only [Option.some.injEq, decide_eq_true_eq]
          exact hd
        rw [bfScan_hit hashes p (hashes.getD p []) i is' m dup adds hcond hcmpT]
        have hm₂p : (fun x => if x = i then true else m x) p = true := by
          simp only [if_neg hpi]
          exact hmp
        have hu₂ : unmatchedCount hashes.length
            (fun x => if x = i then true else m x) + 1 =
            unmatchedCount hashes.length m :=
          countP_flip m i (List.range hashes.length)
            (List.nodup_range hashes.length) (List.mem_range.2 hin) hmi
        have hnoedge : ∀ a₁ c₁, c₁ ∈ dup a₁ → a₁ ≠ i ∧ c₁ ≠ i := by
          intro a₁ c₁ hc₁
          obtain ⟨h1, h2, _⟩ := hcore.edges a₁ c₁ hc₁
          constructor
          · intro h
            rw [h, hmi] at h1
            cases h1
          · intro h
            rw [h, hmi] at h2
            cases h2
        have hcore₂ : BFCore hashes (fun x => if x = i then true else m x)
            (fun x => if x = p then dup p ++ [i] else dup x) roots := by
          obtain ⟨rk, hrkdec, hrkbound⟩ := hcore.rkex
          have hedge₂ : ∀ a₁ c₁,
              c₁ ∈ (fun x => if x = p then dup p ++ [i] else dup x) a₁ →
              c₁ ∈ dup a₁ ∨ (a₁ = p ∧ c₁ = i) := by
            intro a₁ c₁ hc₁
            by_cases hap : a₁ = p
            · rw [hap] at hc₁ ⊢
              simp only [eq_self_iff_true, if_true] at hc₁
              rcases List.mem_append.1 hc₁ with hc₁ | hc₁
              · exact Or.inl hc₁
              · simp at hc₁
                exact Or.inr ⟨rfl, hc₁⟩
            · simp only [if_neg hap] at hc₁
              exact Or.inl hc₁
          refine ⟨?_, ?_, ?_, ?_, hcore.roots_lt⟩
          · intro j hj
            by_cases hji : j = i
            · omega
            · simp only [if_neg hji] at hj
              exact hcore.matched_lt j hj
          · refine ⟨fun x => if x = i then unmatchedCount hashes.length
              (fun x => if x = i then true else m x) else rk x, ?_, ?_⟩
            · intro a₁ c₁ hc₁
              rcases hedge₂ a₁ c₁ hc₁ with hold | ⟨hap, hci⟩
              · obtain ⟨ha1, hc1⟩ := hnoedge a₁ c₁ hold
                simp only [if_neg ha1, if_neg hc1]
                exact hrkdec a₁ c₁ hold
              · rw [hap, hci]
                have hpi' : ¬ (p = i) := hpi
                simp only [eq_self_iff_true, if_true, if_neg hpi']
                have := (hrkbound p hmp).1
                omega
            · intro j hj
              by_cases hji : j = i
              · rw [hji]
                simp only [eq_self_iff_true, if_true]
                have h1 := unmatchedCount_le hashes.length m
                exact ⟨le_refl _, by omega⟩
              · simp only [if_neg hji] at hj ⊢
                have := hrkbound j hj
                omega
          · intro a₁ c₁ hc₁
            rcases hedge₂ a₁ c₁ hc₁ with hold | ⟨hap, hci⟩
            · obtain ⟨h1, h2, h3⟩ := hcore.edges a₁ c₁ hold
              obtain ⟨ha1, hc1⟩ := hnoedge a₁ c₁ hold
              simp only [if_neg ha1, if_neg hc1]
              exact ⟨h1, h2, h3⟩
            · rw [hap, hci]
              refine ⟨hm₂p, by simp, ?_⟩
              exact hcmpT
          · intro j
            rw [occ_add_child hashes.length dup roots p i j hpn, hcore.occ j]
            by_cases hji : i = j
            · rw [← hji]
              simp [hmi]
            · have hji' : ¬ (j = i) := fun h => hji h.symm
              simp [hji, hji']
        obtain ⟨m', dup', adds', heq, hcore', hmono, hnew, haddsub, haddchar,
          hdmono, hcover⟩ := ih (fun x => if x = i then true else m x)
            (fun x => if x = p then dup p ++ [i] else dup x) (adds ++ [i])
            hlt' hm₂p hcore₂
        have hm₂mono : ∀ x, m x = true →
            (fun x => if x = i then true else m x) x = true := by
          intro x hx
          by_cases h : x = i <;> simp [h, hx]
        have hd₂mono : ∀ a₁ c₁, c₁ ∈ dup a₁ →
            c₁ ∈ (fun x => if x = p then dup p ++ [i] else dup x) a₁ := by
          intro a₁ c₁ hc₁
          by_cases h : a₁ = p
          · rw [h] at hc₁ ⊢
            simp only [eq_self_iff_true, if_true]
            exact List.mem_append_left _ hc₁
          · simp only [if_neg h]
            exact hc₁
        have hiadds' : i ∈ adds' :=
          haddsub i (List.mem_append_right adds (by simp))
        refine ⟨m', dup', adds', heq, hcore', ?_, ?_, ?_, ?_, ?_, ?_⟩
        · intro x hx
          exact hmono x (hm₂mono x hx)
        · intro x hx
          rcases hnew x hx with hx' | hx'
          · by_cases h : x = i
            · rw [h]
              exact Or.inr hiadds'
            · simp only [if_neg h] at hx'
              exact Or.inl hx'
          · exact Or.inr hx'
        · intro x hx
          exact haddsub x (List.mem_append_left _ hx)
        · intro x hx
          rcases haddchar x hx with hx' | ⟨hxm, hxm', hxd⟩
          · rcases List.mem_append.1 hx' with hx'' | hx''
            · exact Or.inl hx''
            · simp at hx''
              rw [hx'']
              refine Or.inr ⟨hmi, hmono i (by simp), ?_⟩
              apply hdmono
              simp
          · refine Or.inr ⟨?_, hxm', hxd⟩
            by_cases h : x = i
            · rw [h] at hxm
              simp only [eq_self_iff_true, if_true] at hxm
              cases hxm
            · simp only [if_neg h] at hxm
              exact hxm
        · intro a₁ c₁ hc₁
          exact hdmono a₁ c₁ (hd₂mono a₁ c₁ hc₁)
        · intro b hb
          rcases List.mem_cons.1 hb with rfl | hb'
          · exact Or.inr (Or.inl (hmono b (by simp)))
          · exact hcover b hb'
      · -- out of threshold: not a duplicate of p
        have hcmpF : cmpLT10 (hashes.getD p []) (hashes.getD i []) 64 =
            some false := by
          rw [hcmp]
          simp only [Option.some.injEq, decide_eq_false_iff_not]
          exact hd
        rw [bfScan_miss hashes p (hashes.getD p []) i is' m dup adds hcond hcmpF]
        obtain ⟨m', dup', adds', heq, hcore', hmono, hnew, haddsub, haddchar,
          hdmono, hcover⟩ := ih m dup adds hlt' hmp hcore
        refine ⟨m', dup', adds', heq, hcore', hmono, hnew, haddsub, haddchar,
          hdmono, ?_⟩
        intro b hb
        rcases List.mem_cons.1 hb with rfl | hb'
        · exact Or.inr (Or.inr hcmpF)
        · exact hcover b hb'

/-- Full specification of the breadth-first queue drain: it succeeds, keeps
the core invariant, and ends with every matched image's neighbourhood closed
into a single root's tree. -/
theorem bfsLoop_spec (hashes : List (List ℕ)) (L : ℕ)
    (hlen : ∀ c, c < hashes.length → (hashes.getD c []).length = L)
    (roots : List ℕ) (rcur : ℕ) (hrc : rcur ∈ roots) :
    ∀ (m : ℕ → Bool) (q : List ℕ) (dup : ℕ → List ℕ),
      BFCore hashes m dup roots →
      (∀ x ∈ q, m x = true) →
      (∀ x ∈ q, dupReach dup rcur x) →
      bfClosed hashes m q dup roots →
      ∃ m' dup', bfsLoop hashes m q dup = some (m', dup') ∧
        BFCore hashes m' dup' roots ∧
        (∀ x, m x = true → m' x = true) ∧
        bfClosed hashes m' [] dup' roots := by
  intro m q dup
  induction m, q, dup using bfsLoop.induct hashes with
  | case1 m dup =>
    intro hcore _ _ hclosed
    refine ⟨m, dup, bfsLoop_nil hashes m dup, hcore, fun x hx => hx, ?_⟩
    intro a ha
    rcases hclosed a ha with h | h
    · cases h
    · exact Or.inr h
  | case2 m dup p qs hscan =>
    intro hcore hqm hqr hclosed
    have hmp : m p = true := hqm p (List.mem_cons_self p qs)
    have hpn : p < hashes.length := hcore.matched_lt p hmp
    obtain ⟨m'', dup'', adds'', heq, _⟩ :=
      bfScan_spec hashes L hlen roots p hpn (List.range hashes.length) m dup []
        (fun i hi => List.mem_range.1 hi) hmp hcore
    rw [heq] at hscan
    cases hscan
  | case3 m dup p qs m₂ dup₂ adds hscan ih =>
    intro hcore hqm hqr hclosed
    have hmp : m p = true := hqm p (List.mem_cons_self p qs)
    have hpn : p < hashes.length := hcore.matched_lt p hmp
    obtain ⟨m'', dup'', adds'', heq, hcore₂, hmono, hnew, haddsub, haddchar,
      hdmono, hcover⟩ :=
      bfScan_spec hashes L hlen roots p hpn (List.range hashes.length) m dup []
        (fun i hi => List.mem_range.1 hi) hmp hcore
    have h1 : (m'', dup'', adds'') = (m₂, dup₂, adds) := by
      rw [heq] at hscan
      exact Option.some.inj hscan
    have em : m'' = m₂ := congrArg Prod.fst h1
    have ed : dup'' = dup₂ := congrArg Prod.fst (congrArg Prod.snd h1)
    have ea : adds'' = adds := congrArg Prod.snd (congrArg Prod.snd h1)
    rw [em] at heq hcore₂ hmono hnew haddchar hcover
    rw [ed] at heq hcore₂ haddchar hdmono
    rw [ea] at heq hnew haddsub haddchar
    have hreachp : dupReach dup₂ rcur p :=
      dupReach_mono dup dup₂ hdmono rcur p (hqr p (List.mem_cons_self p qs))
    have hqm₂ : ∀ x ∈ qs ++ adds, m₂ x = true := by
      intro x hx
      rcases List.mem_append.1 hx with hx | hx
      · exact hmono x (hqm x (List.mem_cons_of_mem p hx))
      · rcases haddchar x hx with hnil | ⟨_, hx₂, _⟩
        · cases hnil
        · exact hx₂
    have hqr₂ : ∀ x ∈ qs ++ adds, dupReach dup₂ rcur x := by
      intro x hx
      rcases List.mem_append.1 hx with hx | hx
      · exact dupReach_mono dup dup₂ hdmono rcur x
          (hqr x (List.mem_cons_of_mem p hx))
      · rcases haddchar x hx with hnil | ⟨_, _, hxd⟩
        · cases hnil
        · exact Relation.ReflTransGen.tail hreachp hxd
    have hclosed₂ : bfClosed hashes m₂ (qs ++ adds) dup₂ roots := by
      intro a ha
      rcases hnew a ha with hma | hadds
      · rcases hclosed a hma with haq | hright
        · rcases List.mem_cons.1 haq with rfl | haqs
          · -- the dequeued image: closure established by the scan
            right
            intro b hb
            obtain ⟨hpn', hbn, hcmpb⟩ := hb
            rcases hcover b (List.mem_range.2 hbn) with rfl | hmb | hcmpf
            · exact ⟨ha, rcur, hrc, hreachp, hreachp⟩
            · refine ⟨hmb, ?_⟩
              rcases hnew b hmb with hmbold | hbadds
              · rcases hclosed b hmbold with hbq | hbright
                · rcases List.mem_cons.1 hbq with rfl | hbqs
                  · exact ⟨rcur, hrc, hreachp, hreachp⟩
                  · exact ⟨rcur, hrc, hreachp, dupReach_mono dup dup₂ hdmono
                      rcur b (hqr b (List.mem_cons_of_mem a hbqs))⟩
                · obtain ⟨_, rt, hrt, hrb, hrp⟩ :=
                    hbright a (nearBF_symm hashes a b ⟨hpn', hbn, hcmpb⟩)
                  exact ⟨rt, hrt, dupReach_mono dup dup₂ hdmono rt a hrp,
                    dupReach_mono dup dup₂ hdmono rt b hrb⟩
              · rcases haddchar b hbadds with hnil | ⟨_, _, hbd⟩
                · cases hnil
                · exact ⟨rcur, hrc, hreachp,
                    Relation.ReflTransGen.tail hreachp hbd⟩
            · rw [hcmpb] at hcmpf
              cases hcmpf
          · exact Or.inl (List.mem_append_left _ haqs)
        · right
          intro b hb
          obtain ⟨hmb, rt, hrt, hra, hrb⟩ := hright b hb
          exact ⟨hmono b hmb, rt, hrt, dupReach_mono dup dup₂ hdmono rt a hra,
            dupReach_mono dup dup₂ hdmono rt b hrb⟩
      · exact Or.inl (List.mem_append_right _ hadds)
    obtain ⟨m', dup', hloop, hcore', hmono', hclosed'⟩ :=
      ih hcore₂ hqm₂ hqr₂ hclosed₂
    refine ⟨m', dup', ?_, hcore', fun x hx => hmono' x (hmono x hx), hclosed'⟩
    rw [bfsLoop_cons, heq]
    exact hloop

/-- Starting a new root `r` re-establishes all loop invariants. -/
theorem bfRoot_start (hashes : List (List ℕ))
    (m : ℕ → Bool) (dup : ℕ → List ℕ) (roots : List ℕ) (r : ℕ)
    (hcore : BFCore hashes m dup roots)
    (hclosed : bfClosed hashes m [] dup roots)
    (hrn : r < hashes.length) (hmr : m r = false) :
    BFCore hashes (fun x => if x = r then true else m x) dup (roots ++ [r]) ∧
    (∀ x ∈ [r], (fun x => if x = r then true else m x) x = true) ∧
    (∀ x ∈ [r], dupReach dup r x) ∧
    bfClosed hashes (fun x => if x = r then true else m x) [r] dup
      (roots ++ [r]) := by
  have hu₁ : unmatchedCount hashes.length
      (fun x => if x = r then true else m x) + 1 =
      unmatchedCount hashes.length m :=
    countP_flip m r (List.range hashes.length)
      (List.nodup_range hashes.length) (List.mem_range.2 hrn) hmr
  have hnoedge : ∀ a₁ c₁, c₁ ∈ dup a₁ → a₁ ≠ r ∧ c₁ ≠ r := by
    intro a₁ c₁ hc₁
    obtain ⟨h1, h2, _⟩ := hcore.edges a₁ c₁ hc₁
    constructor
    · intro h
      rw [h, hmr] at h1
      cases h1
    · intro h
      rw [h, hmr] at h2
      cases h2
  refine ⟨?_, ?_, ?_, ?_⟩
  · obtain ⟨rk, hrkdec, hrkbound⟩ := hcore.rkex
    refine ⟨?_, ?_, ?_, ?_, ?_⟩
    · intro j hj
      by_cases hjr : j = r
      · omega
      · simp only [if_neg hjr] at hj
        exact hcore.matched_lt j hj
    · refine ⟨fun x => if x = r then unmatchedCount hashes.length
        (fun x => if x = r then true else m x) else rk x, ?_, ?_⟩
      · intro a₁ c₁ hc₁
        obtain ⟨ha1, hc1⟩ := hnoedge a₁ c₁ hc₁
        simp only [if_neg ha1, if_neg hc1]
        exact hrkdec a₁ c₁ hc₁
      · intro j hj
        by_cases hjr : j = r
        · rw [hjr]
          simp only [eq_self_iff_true, if_true]
          have h1 := unmatchedCount_le hashes.length m
          exact ⟨le_refl _, by omega⟩
        · simp only [if_neg hjr] at hj ⊢
          have := hrkbound j hj
          omega
    · intro a₁ c₁ hc₁
      obtain ⟨h1, h2, h3⟩ := hcore.edges a₁ c₁ hc₁
      obtain ⟨ha1, hc1⟩ := hnoedge a₁ c₁ hc₁
      simp only [if_neg ha1, if_neg hc1]
      exact ⟨h1, h2, h3⟩
    · intro j
      rw [occ_add_root hashes.length dup roots r j, hcore.occ j]
      by_cases hjr : r = j
      · rw [← hjr]
        simp [hmr]
      · have hjr' : ¬ (j = r) := fun h => hjr h.symm
        simp [hjr, hjr']
    · intro x hx
      rcases List.mem_append.1 hx with hx | hx
      · exact hcore.roots_lt x hx
      · simp at hx
        omega
  · intro x hx
    simp at hx
    rw [hx]
    simp
  · intro x hx
    simp at hx
    rw [hx]
    exact Relation.ReflTransGen.refl
  · intro a ha
    by_cases har : a = r
    · rw [har]
      exact Or.inl (List.mem_cons_self r [])
    · simp only [if_neg har] at ha
      rcases hclosed a ha with h | h
      · cases h
      · right
        intro b hb
        obtain ⟨hmb, rt, hrt, hra, hrb⟩ := h b hb
        refine ⟨?_, rt, List.mem_append_left _ hrt, hra, hrb⟩
        by_cases hbr : b = r <;> simp [hbr, hmb]

/-- Full specification of the outer loop of the brute-force clusterer: it
succeeds (on equal-length fingerprints), every image ends matched, the final
state keeps the core invariant, and every within-threshold pair of images is
gathered under a common root. -/
theorem bfOuter_spec (hashes : List (List ℕ)) (L : ℕ)
    (hlen : ∀ c, c < hashes.length → (hashes.getD c []).length = L) :
    ∀ (m : ℕ → Bool) (dup : ℕ → List ℕ) (roots : List ℕ),
      BFCore hashes m dup roots →
      bfClosed hashes m [] dup roots →
      ∃ (dup' : ℕ → List ℕ) (roots' : List ℕ) (m' : ℕ → Bool),
        bfOuter hashes m dup roots = some (dup', roots') ∧
        (∀ j, m' j = true ↔ j < hashes.length) ∧
        BFCore hashes m' dup' roots' ∧
        bfClosed hashes m' [] dup' roots' := by
  intro m dup roots
  induction m, dup, roots using bfOuter.induct hashes with
  | case1 m dup roots hfind =>
    intro hcore hclosed
    refine ⟨dup, roots, m, ?_, ?_, hcore, hclosed⟩
    · rw [bfOuter_eq, hfind]
    · intro j
      constructor
      · exact hcore.matched_lt j
      · intro hj
        have h1 := List.find?_eq_none.1 hfind j (List.mem_range.2 hj)
        simpa using h1
  | case2 m dup roots r hfind hloop =>
    intro hcore hclosed
    have hr1 := List.find?_some hfind
    have hrn : r < hashes.length := List.mem_range.1 (List.mem_of_find?_eq_some hfind)
    have hmr : m r = false := by simpa using hr1
    obtain ⟨hcore₁, hq₁, hr₁, hclosed₁⟩ :=
      bfRoot_start hashes m dup roots r hcore hclosed hrn hmr
    obtain ⟨m', dup', heq, _⟩ :=
      bfsLoop_spec hashes L hlen (roots ++ [r]) r
        (List.mem_append_right roots (List.mem_cons_self r []))
        (fun x => if x = r then true else m x) [r] dup hcore₁ hq₁ hr₁ hclosed₁
    have hloop2 : bfsLoop hashes (fun x => if x = r then true else m x) [r] dup =
        none := hloop
    rw [heq] at hloop2
    cases hloop2
  | case3 m dup roots r hfind m₂ dup₂ hloop ih =>
    intro hcore hclosed
    have hr1 := List.find?_some hfind
    have hrn : r < hashes.length := List.mem_range.1 (List.mem_of_find?_eq_some hfind)
    have hmr : m r = false := by simpa using hr1
    obtain ⟨hcore₁, hq₁, hr₁, hclosed₁⟩ :=
      bfRoot_start hashes m dup roots r hcore hclosed hrn hmr
    obtain ⟨m'', dup'', heq, hcore₂, hmono₂, hclosed₂⟩ :=
      bfsLoop_spec hashes L hlen (roots ++ [r]) r
        (List.mem_append_right roots (List.mem_cons_self r []))
        (fun x => if x = r then true else m x) [r] dup hcore₁ hq₁ hr₁ hclosed₁
    have hloop2 : bfsLoop hashes (fun x => if x = r then true else m x) [r] dup =
        some (m₂, dup₂) := hloop
    have h1 : (m'', dup'') = (m₂, dup₂) := by
      rw [heq] at hloop2
      exact Option.some.inj hloop2
    have em : m'' = m₂ := congrArg Prod.fst h1
    have ed : dup'' = dup₂ := congrArg Prod.snd h1
    rw [em] at hcore₂ hclosed₂
    rw [ed] at heq hcore₂ hclosed₂
    rw [em] at heq
    obtain ⟨dup', roots', m', hout, hall, hcore', hclosed'⟩ := ih hcore₂ hclosed₂
    refine ⟨dup', roots', m', ?_, hall, hcore', hclosed'⟩
    rw [bfOuter_eq]
    simp only [hfind, heq]
    exact hout

/-- Full specification of `BruteForceDeduplicator.deduplicate` on equal-length
fingerprints: it succeeds, its groups partition the images, membership in a
group is reachability from the group's root, every edge was
threshold-checked, and every within-threshold pair ends under a common root. -/
theorem bfGroups_spec (hashes : List (List ℕ)) (L : ℕ)
    (hlen : ∀ h' ∈ hashes, h'.length = L) :
    ∃ (dup : ℕ → List ℕ) (roots : List ℕ),
      bfDeduplicate hashes = some (roots.map (flattenF dup hashes.length)) ∧
      (∀ p c, c ∈ dup p → p < hashes.length ∧ c < hashes.length ∧
        cmpLT10 (hashes.getD p []) (hashes.getD c []) 64 = some true) ∧
      (∃ rk : ℕ → ℕ, (∀ p c, c ∈ dup p → rk c < rk p) ∧
        (∀ j, j < hashes.length → rk j < hashes.length)) ∧
      (∀ j, occCount hashes.length dup roots j =
        if j < hashes.length then 1 else 0) ∧
      ((roots.map (flattenF dup hashes.length)).flatten.Perm
        (List.range hashes.length)) ∧
      (∀ i j : ℕ, ((∃ g ∈ roots.map (flattenF dup hashes.length),
          i ∈ g ∧ j ∈ g) ↔ ∃ r ∈ roots, dupReach dup r i ∧ dupReach dup r j)) ∧
      (∀ g ∈ roots.map (flattenF dup hashes.length), g ≠ []) ∧
      (∀ a b, nearBF hashes a b →
        ∃ rt ∈ roots, dupReach dup rt a ∧ dupReach dup rt b) := by
  have hlen' := getD_length hashes L hlen
  have hcore₀ : BFCore hashes (fun _ => false) (fun _ => []) [] := by
    refine ⟨?_, ⟨fun _ => 0, ?_, ?_⟩, ?_, ?_, ?_⟩
    · intro j hj; cases hj
    · intro p c hc; cases hc
    · intro j hj; cases hj
    · intro p c hc; cases hc
    · intro j
      unfold occCount
      rw [sum_map_zero _ _ (fun p _ => List.count_nil j)]
      simp
    · intro r hr; cases hr
  have hclosed₀ : bfClosed hashes (fun _ => false) [] (fun _ => []) [] := by
    intro a ha; cases ha
  obtain ⟨dup, roots, m', hout, hall, hcore', hclosed'⟩ :=
    bfOuter_spec hashes L hlen' (fun _ => false) (fun _ => []) [] hcore₀ hclosed₀
  have hocc : ∀ j, occCount hashes.length dup roots j =
      if j < hashes.length then 1 else 0 := by
    intro j
    rw [hcore'.occ j]
    by_cases hj : j < hashes.length
    · simp [hj, (hall j).2 hj]
    · have : m' j = false := by
        rcases Bool.eq_false_or_eq_true (m' j) with h | h
        · exact absurd ((hall j).1 h) hj
        · exact h
      simp [hj, this]
  have hedges : ∀ p c, c ∈ dup p → p < hashes.length ∧ c < hashes.length ∧
      cmpLT10 (hashes.getD p []) (hashes.getD c []) 64 = some true := by
    intro p c hc
    obtain ⟨h1, h2, h3⟩ := hcore'.edges p c hc
    exact ⟨hcore'.matched_lt p h1, hcore'.matched_lt c h2, h3⟩
  obtain ⟨rk, hrkdec, hrkbound⟩ := hcore'.rkex
  have hrk : ∀ j, j < hashes.length → rk j < hashes.length :=
    fun j hj => (hrkbound j ((hall j).2 hj)).2
  have hforest := forest_main hashes.length dup roots rk hrkdec hrk
    (fun p c hc => ⟨(hedges p c hc).1, (hedges p c hc).2.1⟩) hocc
  have hded : bfDeduplicate hashes =
      some (roots.map (flattenF dup hashes.length)) := by
    unfold bfDeduplicate
    rw [hout]
  refine ⟨dup, roots, hded, hedges, ⟨rk, hrkdec, hrk⟩, hocc,
    hforest.1, hforest.2.1, hforest.2.2, ?_⟩
  intro a b hab
  have hma : m' a = true := (hall a).2 hab.1
  rcases hclosed' a hma with h | h
  · cases h
  · exact (h b hab).2

/-- For 64-bit fingerprints, the code's threshold test is exactly
"Hamming distance below 10". -/
theorem near_iff_ham (hashes : List (List ℕ))
    (hlen : ∀ h' ∈ hashes, h'.length = 64) :
    ∀ a b, nearBF hashes a b ↔ nearHam hashes a b := by
  have hlen' := getD_length hashes 64 hlen
  intro a b
  constructor
  · rintro ⟨ha, hb, hcmp⟩
    refine ⟨ha, hb, ?_⟩
    rw [cmpLT10_eq_some _ _ _ (by rw [hlen' a ha, hlen' b hb])] at hcmp
    have h1 := Option.some.inj hcmp
    rw [decide_eq_true_eq] at h1
    rw [hlen' a ha] at h1
    omega
  · rintro ⟨ha, hb, hcount⟩
    refine ⟨ha, hb, ?_⟩
    rw [cmpLT10_eq_some _ _ _ (by rw [hlen' a ha, hlen' b hb])]
    simp only [Option.some.injEq, decide_eq_true_eq]
    rw [hlen' a ha]
    omega

/-- The groups of the brute-force clusterer are exactly the connected
components of the "Hamming distance below 10" relation. -/
theorem bf_components (hashes : List (List ℕ))
    (hlen : ∀ h' ∈ hashes, h'.length = 64) :
    ∃ groups, bfDeduplicate hashes = some groups ∧
      ∀ i j, i < hashes.length → j < hashes.length →
        ((∃ g ∈ groups, i ∈ g ∧ j ∈ g) ↔
          Relation.ReflTransGen (nearHam hashes) i j) := by
  obtain ⟨dup, roots, hded, hedges, ⟨rk, hrkdec, hrk⟩, hocc, hperm, hiff, hnil,
    hclose⟩ := bfGroups_spec hashes 64 hlen
  refine ⟨_, hded, ?_⟩
  intro i j hi hj
  have hnear := near_iff_ham hashes hlen
  have hdom : ∀ p c, c ∈ dup p → p < hashes.length ∧ c < hashes.length :=
    fun p c hc => ⟨(hedges p c hc).1, (hedges p c hc).2.1⟩
  have hup := occ_unique_parent hashes.length dup roots hocc hdom
  have hnc := occ_root_not_child hashes.length dup roots hocc hdom
  constructor
  · intro hmem
    rcases (hiff i j).1 hmem with ⟨r, hr, hri, hrj⟩
    have hsub : ∀ a b : ℕ, b ∈ dup a → nearBF hashes a b := by
      intro a b hab
      exact ⟨(hedges a b hab).1, (hedges a b hab).2.1, (hedges a b hab).2.2⟩
    have h1 : Relation.ReflTransGen (nearBF hashes) r i :=
      Relation.ReflTransGen.mono hsub hri
    have h2 : Relation.ReflTransGen (nearBF hashes) r j :=
      Relation.ReflTransGen.mono hsub hrj
    have hsym : Symmetric (Relation.ReflTransGen (nearBF hashes)) :=
      Relation.ReflTransGen.symmetric (fun a b hab => nearBF_symm hashes a b hab)
    have h3 : Relation.ReflTransGen (nearBF hashes) i j :=
      Relation.ReflTransGen.trans (hsym h1) h2
    exact Relation.ReflTransGen.mono (fun a b hab => (hnear a b).1 hab) h3
  · intro hpath
    have hpath2 : Relation.ReflTransGen (nearBF hashes) i j :=
      Relation.ReflTransGen.mono (fun a b hab => (hnear a b).2 hab) hpath
    have hstep : ∀ j', Relation.ReflTransGen (nearBF hashes) i j' →
        ∃ r ∈ roots, dupReach dup r i ∧ dupReach dup r j' := by
      intro j' hp
      induction hp with
      | refl =>
        obtain ⟨r, hr, hri⟩ := forest_ascend hashes.length dup roots rk hrkdec
          hrk hdom hocc i hi
        exact ⟨r, hr, hri, hri⟩
      | tail hib hbj ihp =>
        obtain ⟨r, hr, hri, hrb⟩ := ihp
        obtain ⟨rt, hrt, hrtb, hrtj⟩ := hclose _ _ hbj
        have heq : rt = r := forest_root_unique hashes.length dup roots hup hnc
          rt r _ hrt hr hrtb hrb
        exact ⟨r, hr, hri, heq ▸ hrtj⟩
    obtain ⟨r, hr, hri, hrj⟩ := hstep j hpath2
    exact (hiff i j).2 ⟨r, hr, hri, hrj⟩

/-- Scanning a bucket that holds only the incoming image changes nothing. -/
theorem scanBucket_self (hashes : List (List ℕ)) (d i : ℕ) (h : List ℕ) :
    ∀ (bucket : List ℕ) (dup : ℕ → List ℕ) (u : Bool),
      (∀ c ∈ bucket, c = i) →
      scanBucket hashes d i h bucket dup u = some (dup, u) := by
  intro bucket
  induction bucket with
  | nil => intro dup u _; rfl
  | cons c cs ih =>
    intro dup u hall
    have hc : c = i := hall c (List.mem_cons_self c cs)
    subst hc
    cases u with
    | false => exact scanBucket_false hashes d c h c cs dup
    | true =>
      rw [scanBucket_skip hashes d h c cs dup]
      exact ih dup true (fun x hx => hall x (List.mem_cons_of_mem c hx))

/-- Scanning a bucket that contains an earlier image whose comparison raises
aborts the scan. -/
theorem scanBucket_none_of_bad (hashes : List (List ℕ)) (d i : ℕ) (h : List ℕ)
    (bad : ℕ) (hbadne : bad ≠ i)
    (hbadcmp : cmpLT10 h (hashes.getD bad []) d = none) :
    ∀ (bucket : List ℕ) (dup : ℕ → List ℕ),
      (∀ c ∈ bucket, c = bad ∨ c = i) → bad ∈ bucket →
      scanBucket hashes d i h bucket dup true = none := by
  intro bucket
  induction bucket with
  | nil => intro dup _ hmem; cases hmem
  | cons c cs ih =>
    intro dup hall hmem
    rcases hall c (List.mem_cons_self c cs) with hc | hc
    · subst hc
      exact scanBucket_err hashes d i h c cs dup
        (fun hh => hbadne hh) hbadcmp
    · subst hc
      rw [scanBucket_skip hashes d h c cs dup]
      have hmem' : bad ∈ cs := by
        rcases List.mem_cons.1 hmem with hb | hb
        · exact absurd hb hbadne
        · exact hb
      exact ih dup (fun x hx => hall x (List.mem_cons_of_mem c hx)) hmem'

/-- A band whose bucket scan raises aborts the band step. -/
theorem lshBand_err (hashes : List (List ℕ)) (d i : ℕ) (h : List ℕ)
    (T : String → List ℕ) (dup2 : ℕ → List ℕ) (u : Bool) (g : List ℕ)
    (key : String) (hkey : bandKey h g = some key)
    (hscan : scanBucket hashes d i h (T key) dup2 u = none) :
    lshBand hashes d i h (T, dup2, u) g = none := by
  simp only [lshBand, hkey, hscan]

/-- Processing the first image of a run: no comparison happens (the only
bucket occupant is the image itself), the image becomes a root, and it is
inserted under each of its band keys. -/
theorem lsh_first_image (hashes proj : List (List ℕ)) (d : ℕ)
    (hb : ∀ g ∈ proj, ∀ p ∈ g, p < (hashes.getD 0 []).length) :
    ∀ (bs : List (List ℕ)) (T : String → List ℕ),
      (∀ g ∈ bs, g ∈ proj) →
      (∀ s c, c ∈ T s → c = 0) →
      ∃ T', bs.foldlM (lshBand hashes d 0 (hashes.getD 0 []))
          (T, fun _ => [], true) = some (T', fun _ => [], true) ∧
        (∀ s c, c ∈ T' s → c = 0) ∧
        (∀ s, 0 ∈ T s → 0 ∈ T' s) ∧
        (∀ g ∈ bs, ∀ ks, bandKey (hashes.getD 0 []) g = some ks → 0 ∈ T' ks) := by
  intro bs
  induction bs with
  | nil =>
    intro T _ hT
    exact ⟨T, rfl, hT, fun s hs => hs, fun g hg => absurd hg (List.not_mem_nil g)⟩
  | cons g bs' ih =>
    intro T hbs hT
    have hg : g ∈ proj := hbs g (List.mem_cons_self g bs')
    have hkey := bandKey_isSome (hashes.getD 0 []) g (hb g hg)
    set key := String.join (g.map (fun p => toString ((hashes.getD 0 []).getD p 0)))
      with hkeydef
    have hscan := scanBucket_self hashes d 0 (hashes.getD 0 []) (T key)
      (fun _ => []) true (fun c hc => hT key c hc)
    have hband := lshBand_eq hashes d 0 (hashes.getD 0 []) T (fun _ => []) true
      g key (fun _ => []) true hkey hscan
    have hT' : ∀ s c, c ∈ (fun s => if s = key then T key ++ [0] else T s) s →
        c = 0 := by
      intro s c hc
      by_cases hs : s = key
      · simp only [hs, if_pos rfl] at hc
        rcases List.mem_append.1 hc with hc | hc
        · exact hT key c hc
        · simpa using hc
      · simp only [if_neg hs] at hc
        exact hT s c hc
    obtain ⟨T', hfold, hmem, hpres, hcov⟩ :=
      ih (fun s => if s = key then T key ++ [0] else T s)
        (fun g' hg' => hbs g' (List.mem_cons_of_mem g hg')) hT'
    have hstep0 : ∀ s, 0 ∈ T s →
        0 ∈ (fun s => if s = key then T key ++ [0] else T s) s := by
      intro s hs
      by_cases hsk : s = key
      · simp only [hsk, if_pos rfl]
        simp
      · simp only [if_neg hsk]
        exact hs
    refine ⟨T', ?_, hmem, ?_, ?_⟩
    · rw [List.foldlM_cons, hband]
      exact hfold
    · intro s hs
      exact hpres s (hstep0 s hs)
    · intro g' hg' ks hks
      rcases List.mem_cons.1 hg' with rfl | hg''
      · have hks' : ks = key := by
          rw [hkey] at hks
          exact (Option.some.inj hks).symm
        apply hpres
        rw [hks']
        simp
      · exact hcov g' hg'' ks hks

/-- Processing the second image when some band's key points at a bucket that
already holds image 0 and the comparison with image 0 raises: the whole band
fold (hence the call) aborts. -/
theorem lsh_second_none (hashes proj : List (List ℕ)) (d : ℕ)
    (hb2 : ∀ g ∈ proj, ∀ p ∈ g, p < (hashes.getD 1 []).length)
    (hbadcmp : cmpLT10 (hashes.getD 1 []) (hashes.getD 0 []) d = none) :
    ∀ (bs : List (List ℕ)) (T : String → List ℕ),
      (∀ g ∈ bs, g ∈ proj) →
      (∀ s c, c ∈ T s → c = 0 ∨ c = 1) →
      (∃ g ∈ bs, ∃ ks, bandKey (hashes.getD 1 []) g = some ks ∧ 0 ∈ T ks) →
      bs.foldlM (lshBand hashes d 1 (hashes.getD 1 []))
        (T, fun _ => [], true) = none := by
  intro bs
  induction bs with
  | nil =>
    rintro T _ _ ⟨g, hg, _⟩
    cases hg
  | cons g bs' ih =>
    rintro T hbs hT ⟨g₀, hg₀, ks₀, hks₀, hmem₀⟩
    have hg : g ∈ proj := hbs g (List.mem_cons_self g bs')
    have hkey := bandKey_isSome (hashes.getD 1 []) g (hb2 g hg)
    set key := String.join (g.map (fun p => toString ((hashes.getD 1 []).getD p 0)))
      with hkeydef
    by_cases hzero : 0 ∈ T key
    · -- the bucket holds image 0: the comparison raises
      have hscan := scanBucket_none_of_bad hashes d 1 (hashes.getD 1 []) 0
        (by omega) hbadcmp (T key) (fun _ => []) (fun c hc => hT key c hc) hzero
      rw [List.foldlM_cons, lshBand_err hashes d 1 (hashes.getD 1 []) T
        (fun _ => []) true g key hkey hscan]
      rfl
    · -- the bucket holds only copies of image 1: no comparison
      have honly1 : ∀ c ∈ T key, c = 1 := by
        intro c hc
        rcases hT key c hc with hc0 | hc1
        · exact absurd (hc0 ▸ hc) hzero
        · exact hc1
      have hscan := scanBucket_self hashes d 1 (hashes.getD 1 []) (T key)
        (fun _ => []) true honly1
      have hband := lshBand_eq hashes d 1 (hashes.getD 1 []) T (fun _ => [])
        true g key (fun _ => []) true hkey hscan
      rw [List.foldlM_cons, hband]
      have hg₀' : g₀ ∈ bs' := by
        rcases List.mem_cons.1 hg₀ with rfl | hh
        · exfalso
          rw [hkey] at hks₀
          have hkk : ks₀ = key := (Option.some.inj hks₀).symm
          rw [hkk] at hmem₀
          exact hzero hmem₀
        · exact hh
      apply ih
      · exact fun g' hg' => hbs g' (List.mem_cons_of_mem g hg')
      · intro s c hc
        by_cases hs : s = key
        · simp only [hs, if_pos rfl] at hc
          rcases List.mem_append.1 hc with hc | hc
          · exact hT key c hc
          · simp at hc
            exact Or.inr hc
        · simp only [if_neg hs] at hc
          exact hT s c hc
      · refine ⟨g₀, hg₀', ks₀, hks₀, ?_⟩
        by_cases hsk : ks₀ = key
        · simp only [hsk, if_pos rfl]
          exact List.mem_append_left _ (hsk ▸ hmem₀)
        · simp only [if_neg hsk]
          exact hmem₀

/-- `LSHDeduplicator.deduplicate` on two fingerprints of unequal length that
share a band key: the comparison raises and the call aborts. -/
theorem lsh_mismatch_none (proj : List (List ℕ)) (d : ℕ) (h1 h2 : List ℕ)
    (hb1 : ∀ g ∈ proj, ∀ p ∈ g, p < h1.length)
    (hb2 : ∀ g ∈ proj, ∀ p ∈ g, p < h2.length)
    (hshare : ∃ g ∈ proj, bandKey h1 g = bandKey h2 g)
    (hne : h1.length ≠ h2.length) :
    lshDeduplicate proj d [h1, h2] = none := by
  have hget0 : ([h1, h2] : List (List ℕ)).getD 0 [] = h1 := rfl
  have hget1 : ([h1, h2] : List (List ℕ)).getD 1 [] = h2 := rfl
  have hbadcmp : cmpLT10 (([h1, h2] : List (List ℕ)).getD 1 [])
      (([h1, h2] : List (List ℕ)).getD 0 []) d = none := by
    rw [hget0, hget1]
    exact (cmpLT10_eq_none_iff h2 h1 d).2 (fun hh => hne hh.symm)
  obtain ⟨T₀, hfold₀, hmem₀, _, hcov₀⟩ :=
    lsh_first_image [h1, h2] proj d (by rw [hget0]; exact hb1) proj
      (fun _ => []) (fun g hg => hg) (fun s c hc => absurd hc (List.not_mem_nil c))
  obtain ⟨g₀, hg₀, hkeq⟩ := hshare
  have hk1 := bandKey_isSome h1 g₀ (hb1 g₀ hg₀)
  have hwit : ∃ g ∈ proj, ∃ ks, bandKey (([h1, h2] : List (List ℕ)).getD 1 []) g =
      some ks ∧ 0 ∈ T₀ ks := by
    refine ⟨g₀, hg₀, String.join (g₀.map (fun p => toString (h1.getD p 0))), ?_, ?_⟩
    · rw [hget1, ← hkeq, hk1]
    · apply hcov₀ g₀ hg₀
      rw [hget0, hk1]
  have hfold₁ := lsh_second_none [h1, h2] proj d (by rw [hget1]; exact hb2)
    hbadcmp proj T₀ (fun g hg => hg) (fun s c hc => Or.inl (hmem₀ s c hc)) hwit
  have hrange : List.range ([h1, h2] : List (List ℕ)).length = [0, 1] := rfl
  have himg0 : lshImage [h1, h2] proj d (fun _ => [], fun _ => [], []) 0 =
      some (T₀, fun _ => [], [0]) := by
    simp only [lshImage, hfold₀]
    rfl
  have himg1 : lshImage [h1, h2] proj d (T₀, fun _ => [], [0]) 1 = none := by
    simp only [lshImage, hfold₁]
  unfold lshDeduplicate lshRun
  rw [hrange]
  simp only [List.foldlM_cons, himg0, Option.bind_eq_bind, Option.some_bind,
    himg1, List.foldlM_nil, Option.none_bind]

/-- `BruteForceDeduplicator.deduplicate` on two leading fingerprints of
unequal length: the very first scan compares them, raises, and the call
aborts. -/
theorem bf_mismatch_none (h1 h2 : List ℕ) (rest : List (List ℕ))
    (hne : h1.length ≠ h2.length) :
    bfDeduplicate (h1 :: h2 :: rest) = none := by
  have hlen2 : (h1 :: h2 :: rest).length = rest.length + 2 := by simp
  have hrange : List.range (h1 :: h2 :: rest).length =
      0 :: 1 :: ((List.range rest.length).map Nat.succ).map Nat.succ := by
    rw [hlen2, List.range_succ_eq_map, List.range_succ_eq_map, List.map_cons]
  have hfind : (List.range (h1 :: h2 :: rest).length).find?
      (fun j => !((fun _ => false) j)) = some 0 := by
    rw [hrange]
    rfl
  have hm1 : (fun x => if x = 0 then true else (fun _ => false) x) 1 = false := by
    simp
  have hcmp : cmpLT10 ((h1 :: h2 :: rest).getD 0 [])
      ((h1 :: h2 :: rest).getD 1 []) 64 = none :=
    (cmpLT10_eq_none_iff h1 h2 64).2 hne
  have hscan : bfScan (h1 :: h2 :: rest) 0 ((h1 :: h2 :: rest).getD 0 [])
      (List.range (h1 :: h2 :: rest).length)
      (fun x => if x = 0 then true else (fun _ => false) x) (fun _ => []) [] =
      none := by
    rw [hrange]
    rw [bfScan_skip _ _ _ _ _ _ _ _ (Or.inl rfl)]
    apply bfScan_err
    · intro hcond
      rcases hcond with hcond | hcond
      · exact absurd hcond (by decide)
      · exact absurd hcond (by decide)
    · exact hcmp
  unfold bfDeduplicate
  rw [bfOuter_eq]
  simp only [hfind]
  rw [bfsLoop_cons, hscan]

/-- Antisymmetry of duplicate-reachability in a ranked forest. -/
theorem dupReach_antisymm (dup : ℕ → List ℕ) (rk : ℕ → ℕ)
    (hdec : ∀ p c, c ∈ dup p → rk c < rk p) :
    ∀ a b, dupReach dup a b → dupReach dup b a → a = b := by
  intro a b hab hba
  rcases Relation.ReflTransGen.cases_tail hab with heq | ⟨p, hap, hpb⟩
  · exact heq.symm
  · have h1 : rk b < rk a :=
      lt_of_lt_of_le (hdec p b hpb) (dupReach_rk dup rk hdec a p hap)
    have h2 : rk a ≤ rk b := dupReach_rk dup rk hdec b a hba
    omega

/-- C9 (confirmed): for every image convertible to a 2D grayscale grid (the
`resized` abstraction of the `cv2` pipeline output, `s` rows by `s + 1`
columns of samples) and every hash size `s`, `dhash` returns a fingerprint of
exactly `s * s` bits, each `0` or `1`, whose bit for row `i`, column `j`
(row-major position `i * s + j`) is `1` iff the sample at column `j + 1` of
row `i` is strictly greater than the sample at column `j`. -/
theorem claim_C9 (s : ℕ) (resized : ℕ → ℕ → ℕ) :
    (dhash s resized).length = s * s ∧
    (∀ b ∈ dhash s resized, b = 0 ∨ b = 1) ∧
    (∀ i j, i < s → j < s → (dhash s resized)[i * s + j]? =
      some (if resized i j < resized i (j + 1) then 1 else 0)) :=
  ⟨dhash_length s resized, dhash_bits s resized,
    fun i j hi hj => dhash_getElem s resized i j hi hj⟩

/-- C9 witness: the claim applied at hash size 2 and a concrete sample grid. -/
theorem claim_C9_witness :
    (dhash 2 (fun i j => i * 3 + j)).length = 2 * 2 ∧
    (dhash 2 (fun i j => i * 3 + j))[1 * 2 + 1]? =
      some (if (1 : ℕ) * 3 + 1 < 1 * 3 + 2 then 1 else 0) :=
  ⟨(claim_C9 2 (fun i j => i * 3 + j)).1,
    (claim_C9 2 (fun i j => i * 3 + j)).2.2 1 1 (by decide) (by decide)⟩

/-- C5 counterexample: the claim "for every random seed, the `k` positions of
any single band are pairwise distinct" is false — `np.random.choice` draws
with replacement, so the draw stream that always returns `0` yields the
all-zero band, which is not pairwise distinct (with the default parameters
`d = 64`, `k = 32`, `l = 50`). -/
theorem claim_C5_counterexample :
    ¬ (∀ stream : ℕ → ℕ, ∀ g ∈ lshProjections 64 32 50 stream,
        List.Pairwise (fun a b => a ≠ b) g) := fun h =>
  absurd (h (fun _ => 0) (List.replicate 32 0) (by decide)) (by decide)

/-- C5 (corrected): at construction, each of the `l` bands consists of `k`
positions drawn from `[0, d)` *with* replacement (`np.random.choice` without
`replace=False`), so every entry lies in `[0, d)` and each band has length
`k`, but entries within one band may repeat. -/
theorem claim_C5 (d k l : ℕ) (stream : ℕ → ℕ) (hd : 0 < d) :
    ∀ g ∈ lshProjections d k l stream, g.length = k ∧ ∀ x ∈ g, x < d := by
  intro g hg
  rcases List.mem_map.1 hg with ⟨b, _, rfl⟩
  constructor
  · unfold npChoice
    simp
  · intro x hx
    rcases List.mem_map.1 hx with ⟨t, _, rfl⟩
    exact Nat.mod_lt _ hd

/-- C5 witness: the corrected claim applied at the default parameters and the
constant-zero draw stream. -/
theorem claim_C5_witness :
    0 < 64 ∧ (∀ g ∈ lshProjections 64 32 50 (fun _ => 0),
      g.length = 32 ∧ ∀ x ∈ g, x < 64) :=
  ⟨by decide, claim_C5 64 32 50 (fun _ => 0) (by decide)⟩

/-- C6 counterexample: the claim "the distance value that each clusterer
compares against the threshold equals the exact count of differing bit
positions" is false for the brute-force clusterer on fingerprints of length
16: one differing bit gives the value `1/16 * 64 = 4`, not `1` (the `64`
multiplier is hard-coded, `deduplication.py` line 137). -/
theorem claim_C6_counterexample :
    bfDistanceVal (1 :: List.replicate 15 0) (List.replicate 16 0) ≠
      (hammingCount (1 :: List.replicate 15 0) (List.replicate 16 0) : ℚ) := by
  have h1 : hammingCount (1 :: List.replicate 15 0) (List.replicate 16 0) = 1 := by
    decide
  have h2 : ((1 : ℕ) :: List.replicate 15 0).length = 16 := by decide
  unfold bfDistanceVal
  rw [h1, h2]
  norm_num

/-- C6 (corrected): on equal nonzero-length fingerprints both clusterers
compare exactly the rational value `count/len * mult` against 10; the LSH
value equals the exact differing-bit count (an integer in `[0, d]`) whenever
the fingerprint length equals the configured dimensionality `d`, while the
brute-force value is `count * 64 / len`, which equals the exact count only at
the default length 64. -/
theorem claim_C6 (a b : List ℕ) (d : ℕ) (hab : a.length = b.length)
    (h0 : 0 < a.length) :
    cmpLT10 a b d = some (decide (lshDistanceVal a b d < 10)) ∧
    cmpLT10 a b 64 = some (decide (bfDistanceVal a b < 10)) ∧
    hammingCount a b ≤ a.length ∧
    (a.length = d → lshDistanceVal a b d = hammingCount a b) ∧
    bfDistanceVal a b = (hammingCount a b : ℚ) * 64 / a.length ∧
    (a.length = 64 → bfDistanceVal a b = hammingCount a b) := by
  have hL0 : (0 : ℚ) < (a.length : ℚ) := by
    exact_mod_cast h0
  have hiff : ∀ m : ℕ, (hammingCount a b * m < 10 * a.length ↔
      (hammingCount a b : ℚ) / (a.length : ℚ) * (m : ℚ) < 10) := by
    intro m
    rw [div_mul_eq_mul_div, div_lt_iff₀ hL0]
    constructor
    · intro h
      calc (hammingCount a b : ℚ) * (m : ℚ) = ((hammingCount a b * m : ℕ) : ℚ) := by
            push_cast
            ring
        _ < ((10 * a.length : ℕ) : ℚ) := by exact_mod_cast h
        _ = 10 * (a.length : ℚ) := by push_cast; ring
    · intro h
      have : ((hammingCount a b * m : ℕ) : ℚ) < ((10 * a.length : ℕ) : ℚ) := by
        push_cast
        calc (hammingCount a b : ℚ) * (m : ℚ) < 10 * (a.length : ℚ) := h
          _ = (10 : ℚ) * (a.length : ℚ) := by ring
      exact_mod_cast this
  refine ⟨?_, ?_, hammingCount_le_length a b, ?_, ?_, ?_⟩
  · rw [cmpLT10_eq_some a b d hab]
    congr 1
    rw [decide_eq_decide]
    exact hiff d
  · rw [cmpLT10_eq_some a b 64 hab]
    congr 1
    rw [decide_eq_decide]
    have := hiff 64
    unfold bfDistanceVal
    unfold lshDistanceVal at this
    simpa using this
  · intro hd
    unfold lshDistanceVal
    rw [hd]
    have hd0 : ((d : ℚ)) ≠ 0 := by
      rw [← hd]
      exact ne_of_gt hL0
    field_simp
  · unfold bfDistanceVal
    rw [div_mul_eq_mul_div]
  · intro h64
    unfold bfDistanceVal
    rw [h64]
    norm_num

/-- C6 witness: the corrected claim applied to two concrete length-1
fingerprints with `d = 1`. -/
theorem claim_C6_witness :
    ([0] : List ℕ).length = ([1] : List ℕ).length ∧ 0 < ([0] : List ℕ).length ∧
    (cmpLT10 [0] [1] 1 = some (decide (lshDistanceVal [0] [1] 1 < 10)) ∧
     cmpLT10 [0] [1] 64 = some (decide (bfDistanceVal [0] [1] < 10)) ∧
     hammingCount [0] [1] ≤ ([0] : List ℕ).length ∧
     (([0] : List ℕ).length = 1 → lshDistanceVal [0] [1] 1 = hammingCount [0] [1]) ∧
     bfDistanceVal [0] [1] = (hammingCount [0] [1] : ℚ) * 64 / ([0] : List ℕ).length ∧
     (([0] : List ℕ).length = 64 → bfDistanceVal [0] [1] = hammingCount [0] [1])) :=
  ⟨rfl, by decide, claim_C6 [0] [1] 1 rfl (by decide)⟩

/-- C10 (confirmed): on the empty input both clusterers return the empty list
of groups without an error (the loops are never entered; the brute-force
`matched.all()` test holds vacuously on the empty array). -/
theorem claim_C10 : ∀ (proj : List (List ℕ)) (d : ℕ),
    lshDeduplicate proj d [] = some [] ∧ bfDeduplicate [] = some [] := by
  intro proj d
  constructor
  · rfl
  · unfold bfDeduplicate
    rw [bfOuter_eq]
    rfl

/-- C1 counterexample: the claim "every pair of images in one group of
`LSHDeduplicator.deduplicate` is within Hamming distance 10" is false.  With
one band on bit 0, dimensionality 64 and the three 64-bit fingerprints below
(all with bit 0 clear), image 1 is attached to image 0 (distance 9) and image
2 to image 1 (distance 9), so one group `[0, 1, 2]` is returned although
images 0 and 2 are at distance 18 ≥ 10: chaining merges pairs beyond the
threshold. -/
theorem claim_C1_counterexample :
    lshDeduplicate [[0]] 64
      [List.replicate 64 0,
       0 :: (List.replicate 9 1 ++ List.replicate 54 0),
       0 :: (List.replicate 18 1 ++ List.replicate 45 0)] = some [[0, 1, 2]] ∧
    hammingCount (List.replicate 64 0)
      (0 :: (List.replicate 18 1 ++ List.replicate 45 0)) = 18 := by
  constructor
  · decide
  · decide

/-- C1 (corrected): no *single accepted merge* of the approximate clusterer
crosses the threshold — every image that is attached as a duplicate passed
the full-fingerprint check `hamming * d < 10` against the image it was
attached to (its parent in the duplicate tree); but images in one group that
are related only through a chain of such merges may be at distance ≥ 10, as
the counterexample shows. -/
theorem claim_C1 (proj hashes : List (List ℕ)) (d L : ℕ)
    (hlen : ∀ h' ∈ hashes, h'.length = L)
    (hproj : ∀ g ∈ proj, ∀ p ∈ g, p < L) :
    ∃ (dup : ℕ → List ℕ) (roots : List ℕ),
      lshDeduplicate proj d hashes =
        some (roots.map (flattenF dup hashes.length)) ∧
      ∀ p c, c ∈ dup p →
        cmpLT10 (hashes.getD c []) (hashes.getD p []) d = some true := by
  obtain ⟨dup, roots, hded, hedge, _⟩ := lshGroups_spec hashes proj d L hlen hproj
  exact ⟨dup, roots, hded, hedge⟩

/-- C1 witness: the corrected claim applied to one concrete 64-bit
fingerprint with one in-bounds band. -/
theorem claim_C1_witness :
    (∀ h' ∈ [List.replicate 64 0], h'.length = 64) ∧
    (∀ g ∈ [[0]], ∀ p ∈ g, p < 64) ∧
    (∃ (dup : ℕ → List ℕ) (roots : List ℕ),
      lshDeduplicate [[0]] 64 [List.replicate 64 0] =
        some (roots.map (flattenF dup 1)) ∧
      ∀ p c, c ∈ dup p →
        cmpLT10 (([List.replicate 64 0] : List (List ℕ)).getD c [])
          (([List.replicate 64 0] : List (List ℕ)).getD p []) 64 = some true) :=
  ⟨by decide, by decide,
    claim_C1 [[0]] [List.replicate 64 0] 64 64 (by decide) (by decide)⟩

/-- C2 (confirmed): on any input whose fingerprints share one length and
whose band positions are in bounds, both clusterers succeed and return
non-empty groups whose concatenation is a permutation of all image indices —
the total element count is `n` and every input image appears in exactly one
group, exactly once. -/
theorem claim_C2 (proj hashes : List (List ℕ)) (d L : ℕ)
    (hlen : ∀ h' ∈ hashes, h'.length = L)
    (hproj : ∀ g ∈ proj, ∀ p ∈ g, p < L) :
    (∃ groups, lshDeduplicate proj d hashes = some groups ∧
      groups.flatten.Perm (List.range hashes.length) ∧ ∀ g ∈ groups, g ≠ []) ∧
    (∃ groups, bfDeduplicate hashes = some groups ∧
      groups.flatten.Perm (List.range hashes.length) ∧ ∀ g ∈ groups, g ≠ []) := by
  constructor
  · obtain ⟨dup, roots, hded, _, _, _, hperm, _, hne⟩ :=
      lshGroups_spec hashes proj d L hlen hproj
    exact ⟨_, hded, hperm, hne⟩
  · obtain ⟨dup, roots, hded, _, _, _, hperm, _, hne, _⟩ :=
      bfGroups_spec hashes L hlen
    exact ⟨_, hded, hperm, hne⟩

/-- C2 witness: the claim applied to two concrete length-2 fingerprints with
one in-bounds band. -/
theorem claim_C2_witness :
    (∀ h' ∈ [[0, 1], [1, 0]], List.length h' = 2) ∧
    (∀ g ∈ [[0]], ∀ p ∈ g, p < 2) ∧
    ((∃ groups, lshDeduplicate [[0]] 2 [[0, 1], [1, 0]] = some groups ∧
      groups.flatten.Perm (List.range 2) ∧ ∀ g ∈ groups, g ≠ []) ∧
     (∃ groups, bfDeduplicate [[0, 1], [1, 0]] = some groups ∧
      groups.flatten.Perm (List.range 2) ∧ ∀ g ∈ groups, g ≠ [])) :=
  ⟨by decide, by decide, claim_C2 [[0]] [[0, 1], [1, 0]] 2 2 (by decide) (by decide)⟩

/-- C3 (confirmed): on 64-bit fingerprints, the groups returned by
`BruteForceDeduplicator.deduplicate` are exactly the connected components of
the relation "the Hamming distance between the two images' fingerprints is
below 10": two images share a group iff they are related by the
reflexive-transitive closure of that relation. -/
theorem claim_C3 (hashes : List (List ℕ))
    (hlen : ∀ h' ∈ hashes, h'.length = 64) :
    ∃ groups, bfDeduplicate hashes = some groups ∧
      ∀ i j, i < hashes.length → j < hashes.length →
        ((∃ g ∈ groups, i ∈ g ∧ j ∈ g) ↔
          Relation.ReflTransGen (nearHam hashes) i j) :=
  bf_components hashes hlen

/-- C3 witness: the claim applied to two concrete 64-bit fingerprints. -/
theorem claim_C3_witness :
    (∀ h' ∈ [List.replicate 64 0, List.replicate 64 1], List.length h' = 64) ∧
    (∃ groups, bfDeduplicate [List.replicate 64 0, List.replicate 64 1] =
        some groups ∧
      ∀ i j, i < 2 → j < 2 →
        ((∃ g ∈ groups, i ∈ g ∧ j ∈ g) ↔
          Relation.ReflTransGen
            (nearHam [List.replicate 64 0, List.replicate 64 1]) i j)) :=
  ⟨by decide, claim_C3 [List.replicate 64 0, List.replicate 64 1] (by decide)⟩

/-- C4 counterexample: the claim that `LSHDeduplicator.deduplicate` maintains
`l` *independent* hash tables — one per band, so that a lookup for band `i`
never returns images inserted by a different band with an equal key string —
is false: the source keeps one shared `hash_table` dict keyed by the string
alone.  With bands `[0]` and `[1]`, `d = 2`, fingerprints `[0,1]` and
`[1,0]`, the second image's band-0 key `"1"` finds the first image, which was
inserted under band 1's key `"1"`, and the two are merged; the spec-modelled
independent-tables variant keeps them apart. -/
theorem claim_C4_counterexample :
    lshDeduplicate [[0], [1]] 2 [[0, 1], [1, 0]] = some [[0, 1]] ∧
    lshDeduplicateIndep [[0], [1]] 2 [[0, 1], [1, 0]] = some [[0], [1]] ∧
    lshDeduplicate [[0], [1]] 2 [[0, 1], [1, 0]] ≠
      lshDeduplicateIndep [[0], [1]] 2 [[0, 1], [1, 0]] := by
  refine ⟨by decide, by decide, by decide⟩

/-- C4 (corrected): `LSHDeduplicator.deduplicate` maintains a *single* hash
table shared by all bands, keyed by the concatenated-bit key string alone:
after the run, the bucket of each key string holds exactly the images that
were inserted under an equal key string by *any* band, in insertion order
(image by image, band by band; an image whose bands repeat a key occurs
repeatedly). -/
theorem claim_C4 (proj hashes : List (List ℕ)) (d L : ℕ)
    (hlen : ∀ h' ∈ hashes, h'.length = L)
    (hproj : ∀ g ∈ proj, ∀ p ∈ g, p < L) :
    ∃ (table : String → List ℕ) (dup : ℕ → List ℕ) (roots : List ℕ),
      lshRun proj d hashes = some (table, dup, roots) ∧
      ∀ s, table s = ((lshKeyHist proj hashes hashes.length).filter
        (fun e => e.2 == s)).map Prod.fst := by
  obtain ⟨table, dup, roots, hrun, hinv, _⟩ :=
    lshDeduplicate_spec hashes proj d L hlen hproj
  exact ⟨table, dup, roots, hrun, hinv.hist⟩

/-- C4 witness: the corrected claim applied to the counterexample input. -/
theorem claim_C4_witness :
    (∀ h' ∈ [[0, 1], [1, 0]], List.length h' = 2) ∧
    (∀ g ∈ [[0], [1]], ∀ p ∈ g, p < 2) ∧
    (∃ (table : String → List ℕ) (dup : ℕ → List ℕ) (roots : List ℕ),
      lshRun [[0], [1]] 2 [[0, 1], [1, 0]] = some (table, dup, roots) ∧
      ∀ s, table s = ((lshKeyHist [[0], [1]] [[0, 1], [1, 0]] 2).filter
        (fun e => e.2 == s)).map Prod.fst) :=
  ⟨by decide, by decide,
    claim_C4 [[0], [1]] [[0, 1], [1, 0]] 2 2 (by decide) (by decide)⟩

/-- C7 (confirmed): comparing fingerprints of unequal length fails (scipy's
`hamming` raises) exactly when the lengths differ, and the failure aborts the
enclosing `deduplicate` call of either clusterer — the call returns the error
(`none`) rather than a result, never silently treating the pair as "not a
duplicate".  For the brute-force clusterer the first two images are always
compared; for the LSH clusterer the comparison happens whenever the images
share a band key. -/
theorem claim_C7 :
    (∀ (a b : List ℕ) (mult : ℕ),
      cmpLT10 a b mult = none ↔ a.length ≠ b.length) ∧
    (∀ (h1 h2 : List ℕ) (rest : List (List ℕ)), h1.length ≠ h2.length →
      bfDeduplicate (h1 :: h2 :: rest) = none) ∧
    (∀ (proj : List (List ℕ)) (d : ℕ) (h1 h2 : List ℕ),
      (∀ g ∈ proj, ∀ p ∈ g, p < h1.length) →
      (∀ g ∈ proj, ∀ p ∈ g, p < h2.length) →
      (∃ g ∈ proj, bandKey h1 g = bandKey h2 g) →
      h1.length ≠ h2.length →
      lshDeduplicate proj d [h1, h2] = none) :=
  ⟨cmpLT10_eq_none_iff, bf_mismatch_none,
    fun proj d h1 h2 hb1 hb2 hshare hne =>
      lsh_mismatch_none proj d h1 h2 hb1 hb2 hshare hne⟩

/-- C7 witness: the claim applied to concrete mismatched fingerprints. -/
theorem claim_C7_witness :
    cmpLT10 [0] [0, 1] 64 = none ∧
    bfDeduplicate [[0], [0, 1]] = none ∧
    lshDeduplicate [[0]] 5 [[0, 1], [0]] = none :=
  ⟨(claim_C7.1 [0] [0, 1] 64).2 (by decide),
    claim_C7.2.1 [0] [0, 1] [] (by decide),
    claim_C7.2.2 [[0]] 5 [0, 1] [0] (by decide) (by decide)
      ⟨[0], by decide, by decide⟩ (by decide)⟩

/-- C8 (confirmed): after any `deduplicate` call of either clusterer (on any
input with equal-length fingerprints and in-bounds bands — and hence, since
this holds for every input, after every processed prefix), the `duplicates`
relation forms a forest: no image appears in the `duplicates` list of two
different images or twice in one list, no root is in any `duplicates` list,
the root list has no repeats, and reachability along `duplicates` edges has
no cycles. -/
theorem claim_C8 (proj hashes : List (List ℕ)) (d L : ℕ)
    (hlen : ∀ h' ∈ hashes, h'.length = L)
    (hproj : ∀ g ∈ proj, ∀ p ∈ g, p < L) :
    (∃ (table : String → List ℕ) (dup : ℕ → List ℕ) (roots : List ℕ),
      lshRun proj d hashes = some (table, dup, roots) ∧
      (∀ p p' c, c ∈ dup p → c ∈ dup p' → p = p') ∧
      (∀ p, (dup p).Nodup) ∧
      (∀ r ∈ roots, ∀ p, r ∉ dup p) ∧
      roots.Nodup ∧
      (∀ a b, dupReach dup a b → dupReach dup b a → a = b)) ∧
    (∃ (dup : ℕ → List ℕ) (roots : List ℕ),
      bfDeduplicate hashes = some (roots.map (flattenF dup hashes.length)) ∧
      (∀ p p' c, c ∈ dup p → c ∈ dup p' → p = p') ∧
      (∀ p, (dup p).Nodup) ∧
      (∀ r ∈ roots, ∀ p, r ∉ dup p) ∧
      roots.Nodup ∧
      (∀ a b, dupReach dup a b → dupReach dup b a → a = b)) := by
  constructor
  · obtain ⟨table, dup, roots, hrun, hinv, _⟩ :=
      lshDeduplicate_spec hashes proj d L hlen hproj
    have hdom : ∀ p c, c ∈ dup p → p < hashes.length ∧ c < hashes.length := by
      intro p c hc
      have := hinv.edge_lt p c hc
      omega
    refine ⟨table, dup, roots, hrun,
      occ_unique_parent hashes.length dup roots hinv.occ hdom,
      occ_child_nodup hashes.length dup roots hinv.occ hdom,
      occ_root_not_child hashes.length dup roots hinv.occ hdom,
      occ_roots_nodup hashes.length dup roots hinv.occ, ?_⟩
    apply dupReach_antisymm dup (fun j => hashes.length - 1 - j)
    intro p c hc
    have := hinv.edge_lt p c hc
    show hashes.length - 1 - c < hashes.length - 1 - p
    omega
  · obtain ⟨dup, roots, hded, hedges, ⟨rk, hrkdec, _⟩, hocc, _⟩ :=
      bfGroups_spec hashes L hlen
    have hdom : ∀ p c, c ∈ dup p → p < hashes.length ∧ c < hashes.length :=
      fun p c hc => ⟨(hedges p c hc).1, (hedges p c hc).2.1⟩
    exact ⟨dup, roots, hded,
      occ_unique_parent hashes.length dup roots hocc hdom,
      occ_child_nodup hashes.length dup roots hocc hdom,
      occ_root_not_child hashes.length dup roots hocc hdom,
      occ_roots_nodup hashes.length dup roots hocc,
      dupReach_antisymm dup rk hrkdec⟩

/-- C8 witness: the claim applied to two concrete length-2 fingerprints. -/
theorem claim_C8_witness :
    (∀ h' ∈ [[0, 1], [1, 0]], List.length h' = 2) ∧
    (∀ g ∈ [[0]], ∀ p ∈ g, p < 2) ∧
    ((∃ (table : String → List ℕ) (dup : ℕ → List ℕ) (roots : List ℕ),
      lshRun [[0]] 2 [[0, 1], [1, 0]] = some (table, dup, roots) ∧
      (∀ p p' c, c ∈ dup p → c ∈ dup p' → p = p') ∧
      (∀ p, (dup p).Nodup) ∧
      (∀ r ∈ roots, ∀ p, r ∉ dup p) ∧
      roots.Nodup ∧
      (∀ a b, dupReach dup a b → dupReach dup b a → a = b)) ∧
    (∃ (dup : ℕ → List ℕ) (roots : List ℕ),
      bfDeduplicate [[0, 1], [1, 0]] = some (roots.map (flattenF dup 2)) ∧
      (∀ p p' c, c ∈ dup p → c ∈ dup p' → p = p') ∧
      (∀ p, (dup p).Nodup) ∧
      (∀ r ∈ roots, ∀ p, r ∉ dup p) ∧
      roots.Nodup ∧
      (∀ a b, dupReach dup a b → dupReach dup b a → a = b))) :=
  ⟨by decide, by decide,
    claim_C8 [[0]] [[0, 1], [1, 0]] 2 2 (by decide) (by decide)⟩
